import Mathlib

/-!
# BaseVector-Core: retrieval scoring pipeline and segmentation engine

Shallow embedding of the algorithmic core of the repository:

* `ability/operators/retrievers/base_retriever.py` — `RetrievalResult`,
  `BaseRetriever._normalize_scores`, `BaseRetriever._filter_by_threshold`,
  `BaseRetriever._rerank`;
* `ability/operators/retrievers/hybrid_retriever.py` —
  `HybridRetriever._rrf_fusion`, `HybridRetriever._weighted_fusion`;
* `ability/operators/chunkers/fixed_chunker.py` — `FixedChunker._chunk_by_chars`;
* `ability/operators/chunkers/title_chunker.py` — `TitleChunker._chunk`;
* `ability/operators/chunkers/parent_child_chunker.py` — `ParentChildChunker`;
* `ability/utils/text_processing.py` — `clean_text`, `remove_empty_lines`.

Python floats carrying similarity scores are modelled as rationals `ℚ`;
character strings are modelled as `List Char`; the open `metadata` dict of a
chunk is modelled by the two keys the specification inspects (`title`,
`title_level`).  Python's ordered `dict` used by the fusion engine is an
insertion-ordered association list.  Python's `list.sort(key=..., reverse=True)`
is a stable descending sort by score; it is modelled by the stable insertion
sort `sortDesc` (same specification: a stable, score-descending permutation).
-/

/-- `RetrievalResult` from `base_retriever.py` (metadata omitted: an opaque
payload never read by the scoring pipeline). -/
structure RetrievalResult where
  chunk_id : ℕ
  document_id : ℕ
  content : String
  score : ℚ
deriving DecidableEq

/-- Python `min(scores)` for the non-empty list `a :: l`. -/
def pyMin (a : ℚ) (l : List ℚ) : ℚ := l.foldl min a

/-- Python `max(scores)` for the non-empty list `a :: l`. -/
def pyMax (a : ℚ) (l : List ℚ) : ℚ := l.foldl max a

/-- `BaseRetriever._normalize_scores` (base_retriever.py lines 201-232):
min-max rescaling of the scores of a result list; when all scores coincide
they are all set to `1` unless they already are `1`. -/
def normalizeScores (results : List RetrievalResult) : List RetrievalResult :=
  match results with
  | [] => []
  | r0 :: rest =>
    let minS := pyMin r0.score (rest.map (·.score))
    let maxS := pyMax r0.score (rest.map (·.score))
    if maxS = minS then
      if maxS ≠ 1 then (r0 :: rest).map (fun r => { r with score := 1 })
      else r0 :: rest
    else
      (r0 :: rest).map (fun r => { r with score := (r.score - minS) / (maxS - minS) })

/-- `BaseRetriever._filter_by_threshold` (base_retriever.py lines 234-251). -/
def filterByThreshold (results : List RetrievalResult) (threshold : ℚ) :
    List RetrievalResult :=
  if threshold ≤ 0 then results
  else results.filter (fun r => threshold ≤ r.score)

/-- One insertion step of the stable descending-by-score sort: `a` is placed
after every earlier element whose score is strictly greater, and before
elements of equal score that came later in the input. -/
def insertDesc (a : RetrievalResult) : List RetrievalResult → List RetrievalResult
  | [] => [a]
  | b :: bs => if a.score < b.score then b :: insertDesc a bs else a :: b :: bs

/-- Stable sort descending by score: Python's
`results.sort(key=lambda x: x.score, reverse=True)`. -/
def sortDesc (l : List RetrievalResult) : List RetrievalResult :=
  l.foldr insertDesc []

/-- `BaseRetriever._rerank` (base_retriever.py lines 253-290).  The external
cross-encoder call `self.reranker.predict(pairs)` is modelled by its outcome
`predictOutcome`: an exception, or the list of replacement scores.  On an
exception the `except` branch returns `results` untouched.  On success the
code writes `rerank_scores[i]` into each result; if the model returned fewer
scores than results the in-place loop raises `IndexError` after rescoring the
first `scores.length` results, and the `except` branch returns that partially
rescored list, unsorted and untruncated. -/
def rerank (predictOutcome : Except String (List ℚ))
    (results : List RetrievalResult) (top_k : ℕ) : List RetrievalResult :=
  if results.isEmpty then results
  else
    match predictOutcome with
    | .error _ => results
    | .ok scores =>
      if results.length ≤ scores.length then
        ((sortDesc (results.enum.map
          (fun p => { p.2 with score := scores.getD p.1 0 }))).take top_k)
      else
        results.enum.map (fun p =>
          if p.1 < scores.length then { p.2 with score := scores.getD p.1 0 } else p.2)

/-- One entry of the `scores`/`results_map` dict of `hybrid_retriever.py`:
`{"result": ..., "semantic_score": ..., "keyword_score": ...}` keyed by
`chunk_id`.  Python dicts preserve insertion order, so the dict is an
insertion-ordered association list. -/
structure FusionEntry where
  cid : ℕ
  result : RetrievalResult
  semS : ℚ
  keyS : ℚ
deriving DecidableEq

/-- The semantic-pass dict update of both fusion algorithms
(hybrid_retriever.py lines 124-135 and 199-209): overwrite the
`semantic_score` of an existing entry for this `chunk_id`, or append a fresh
entry with `keyword_score = 0`. -/
def updSem (m : List FusionEntry) (r : RetrievalResult) (v : ℚ) : List FusionEntry :=
  if m.any (fun e => decide (e.cid = r.chunk_id)) then
    m.map (fun e => if e.cid = r.chunk_id then { e with semS := v } else e)
  else m ++ [⟨r.chunk_id, r, v, 0⟩]

/-- The keyword-pass dict update (hybrid_retriever.py lines 137-148 and
211-221): overwrite the `keyword_score` of an existing entry, or append a
fresh entry with `semantic_score = 0`. -/
def updKey (m : List FusionEntry) (r : RetrievalResult) (v : ℚ) : List FusionEntry :=
  if m.any (fun e => decide (e.cid = r.chunk_id)) then
    m.map (fun e => if e.cid = r.chunk_id then { e with keyS := v } else e)
  else m ++ [⟨r.chunk_id, r, 0, v⟩]

/-- Fold a list of `(result, contribution)` pairs through the semantic-pass
dict update. -/
def applySem (m : List FusionEntry) (ps : List (RetrievalResult × ℚ)) : List FusionEntry :=
  ps.foldl (fun m p => updSem m p.1 p.2) m

/-- Fold a list of `(result, contribution)` pairs through the keyword-pass
dict update. -/
def applyKey (m : List FusionEntry) (ps : List (RetrievalResult × ℚ)) : List FusionEntry :=
  ps.foldl (fun m p => updKey m p.1 p.2) m

/-- The per-source RRF contributions: `enumerate(results, 1)` paired with
`1.0 / (k + rank)`. -/
def rrfPairs (k : ℚ) (results : List RetrievalResult) : List (RetrievalResult × ℚ) :=
  results.enum.map (fun p => (p.2, 1 / (k + (p.1 + 1))))

/-- `HybridRetriever._rrf_fusion` (hybrid_retriever.py lines 101-164):
reciprocal-rank contributions per source, merged by `chunk_id`, fused score
`semantic_weight * rrf_semantic + keyword_weight * rrf_keyword`, stable sort
descending, truncation to `top_k`. -/
def rrfFusion (k sw kw : ℚ) (sem key : List RetrievalResult) (top_k : ℕ) :
    List RetrievalResult :=
  let m := applyKey (applySem [] (rrfPairs k sem)) (rrfPairs k key)
  (sortDesc (m.map (fun e => { e.result with score := sw * e.semS + kw * e.keyS }))).take
    top_k

/-- The per-list rescaling step of `HybridRetriever._weighted_fusion`
(hybrid_retriever.py lines 183-194): when the list's maximum score is
positive, every score is divided by that maximum; otherwise the list is left
untouched. -/
def weightedNormalize (results : List RetrievalResult) : List RetrievalResult :=
  match results with
  | [] => []
  | r0 :: rest =>
    let maxS := pyMax r0.score (rest.map (·.score))
    if 0 < maxS then (r0 :: rest).map (fun r => { r with score := r.score / maxS })
    else r0 :: rest

/-- `HybridRetriever._weighted_fusion` (hybrid_retriever.py lines 166-234):
per-list rescale, per-source weight applied at insertion, merge by
`chunk_id`, fused score `semantic_score + keyword_score`, stable sort
descending, truncation to `top_k`. -/
def weightedFusion (sw kw : ℚ) (sem key : List RetrievalResult) (top_k : ℕ) :
    List RetrievalResult :=
  let sem2 := weightedNormalize sem
  let key2 := weightedNormalize key
  let m := applyKey (applySem [] (sem2.map (fun r => (r, r.score * sw))))
    (key2.map (fun r => (r, r.score * kw)))
  (sortDesc (m.map (fun e => { e.result with score := e.semS + e.keyS }))).take top_k

/-- Python whitespace (`str.strip`, regex `\s`, ASCII range): space, tab,
newline, carriage return, vertical tab, form feed. -/
def isPyWS (c : Char) : Bool :=
  (c == ' ') || (c == '\t') || (c == '\n') || (c == '\r') ||
  (c == Char.ofNat 11) || (c == Char.ofNat 12)

/-- Python `str.strip()`. -/
def pyStrip (s : List Char) : List Char :=
  ((s.dropWhile isPyWS).reverse.dropWhile isPyWS).reverse

/-- Python `text.split("\n")` (also used for `str.split(sep)` in general):
splitting on a separator, keeping empty segments, `[""]` on empty input. -/
def splitOnChar (sep : Char) (s : List Char) : List (List Char) :=
  s.foldr (fun c acc =>
    match acc with
    | [] => [[c]]
    | g :: gs => if c = sep then [] :: g :: gs else (c :: g) :: gs) [[]]

/-- `remove_empty_lines` (text_processing.py lines 46-57): strip every line,
drop the empty ones, re-join with newlines. -/
def removeEmptyLines (s : List Char) : List Char :=
  List.intercalate ['\n']
    (((splitOnChar '\n' s).map pyStrip).filter (fun l => ¬ l.isEmpty))

/-- One pass of `re.sub(r"\s+", " ", text)`: every maximal run of whitespace
becomes a single space.  `inRun` records whether the previous character was
part of a whitespace run. -/
def collapseWS : Bool → List Char → List Char
  | _, [] => []
  | inRun, c :: rest =>
    if isPyWS c then
      if inRun then collapseWS true rest
      else ' ' :: collapseWS true rest
    else c :: collapseWS false rest

/-- `clean_text` (text_processing.py lines 8-26) with the default whitespace
pattern: strip, then collapse every whitespace run (newlines included) to a
single space. -/
def cleanText (s : List Char) : List Char := collapseWS false (pyStrip s)

/-- `BaseChunker._clean_text` (base_chunker.py lines 123-143) with default
kwargs: `remove_empty_lines` then `clean_text`. -/
def cleanPipeline (s : List Char) : List Char := cleanText (removeEmptyLines s)

/-- `Chunk` from `base_chunker.py`.  The offsets are Python ints, hence `ℤ`:
the parent-child chunker's overlap step-back can drive a child's
`start_index` negative.  The open `metadata` dict is modelled by the two keys
the claims inspect (`title`, `title_level`, written by the title chunker);
`chunk_size`/`strategy`/`chunk_type` are opaque bookkeeping never constrained
by the specification. -/
structure Chunk where
  content : List Char
  chunk_index : ℕ
  start_index : ℤ
  end_index : ℤ
  title : List Char := []
  title_level : ℕ := 0
  parent_chunk_id : Option ℕ := none
deriving DecidableEq

/-- The sentence delimiters of `FixedChunker._chunk_by_chars` (fixed_chunker.py
lines 100-108): `。 . ！ ! ？ ? \n`. -/
def isSentenceDelim (c : Char) : Bool :=
  (c == '。') || (c == '.') || (c == '！') || (c == '!') ||
  (c == '？') || (c == '?') || (c == '\n')

/-- `max(content.rfind(d) for d in delimiters)`: the last index holding any
sentence delimiter, `-1` when there is none. -/
def lastDelimIdx (content : List Char) : ℤ :=
  content.enum.foldl (fun acc p => if isSentenceDelim p.2 then (p.1 : ℤ) else acc) (-1)

/-- Python `text[s:e]` for `0 ≤ s ≤ e`. -/
def sliceChars (text : List Char) (s e : ℕ) : List Char := (text.drop s).take (e - s)

/-- The float comparison `sentence_end > chunk_size * min_content_ratio`
deciding whether to snap the window back to the last sentence boundary. -/
def snapsAt (cs : ℕ) (ratio : ℚ) (se : ℤ) : Bool :=
  decide ((cs : ℚ) * ratio < (se : ℚ))

/-- One window of `FixedChunker._chunk_by_chars` (fixed_chunker.py lines
91-117): raw window end `min(start+chunk_size, len)`, optional backward snap
to the last sentence delimiter when the window is interior and overlap is
positive, and the `end <= start` repair forcing a one-character window. -/
def fixedStep (snap : ℤ → Bool) (cs co : ℕ) (text : List Char) (start : ℕ) :
    List Char × ℕ :=
  let end0 := min (start + cs) text.length
  let content0 := sliceChars text start end0
  let pair1 :=
    if end0 < text.length ∧ 0 < co then
      let se := lastDelimIdx content0
      if snap se then (content0.take (se + 1).toNat, start + (se + 1).toNat)
      else (content0, end0)
    else (content0, end0)
  if pair1.2 ≤ start then (sliceChars text start (start + 1), start + 1) else pair1

/-- The next window start (fixed_chunker.py lines 132-137): step back by the
overlap, then force `start + 1` when that does not advance. -/
def fixedNext (co : ℕ) (start e : ℕ) : ℕ :=
  let next0 := if 0 < co then e - co else e
  if next0 ≤ start then start + 1 else next0

/-- The `while start < len(text)` loop of `FixedChunker._chunk_by_chars`
(fixed_chunker.py lines 85-144), fuelled by the iteration budget
`max_iterations`.  The boolean records whether the budget was exhausted with
text still unconsumed — the code path that logs
`"Reached max iterations..., breaking loop"` and breaks, returning the chunks
accumulated so far. -/
def fixedLoopCore (snap : ℤ → Bool) (cs co : ℕ) (text : List Char) :
    ℕ → ℕ → ℕ → List Chunk × Bool
  | 0, start, _ => if start < text.length then ([], true) else ([], false)
  | fuel + 1, start, idx =>
    if start < text.length then
      let pe := fixedStep snap cs co text start
      let chunk : Chunk :=
        { content := pyStrip pe.1, chunk_index := idx,
          start_index := start, end_index := pe.2 }
      let next1 := fixedNext co start pe.2
      if text.length ≤ next1 then ([chunk], false)
      else
        let rest := fixedLoopCore snap cs co text fuel next1 (idx + 1)
        (chunk :: rest.1, rest.2)
    else ([], false)

/-- `FixedChunker._chunk_by_chars` (fixed_chunker.py lines 50-146): empty or
whitespace-only text gives no chunks; text fitting in one window gives a
single chunk; otherwise the window loop runs with budget
`len(text) // max(1, chunk_size - chunk_overlap) + 10`. -/
def chunkByChars (cs co : ℕ) (ratio : ℚ) (text : List Char) : List Chunk × Bool :=
  if (pyStrip text).isEmpty then ([], false)
  else if text.length ≤ cs then
    ([{ content := pyStrip text, chunk_index := 0, start_index := 0,
        end_index := text.length }], false)
  else
    fixedLoopCore (snapsAt cs ratio) cs co text
      (text.length / max 1 (cs - co) + 10) 0 0

/-- `FixedChunker._chunk` (fixed_chunker.py lines 27-48, character mode):
clean the text, then chunk by characters. -/
def fixedChunk (cs co : ℕ) (ratio : ℚ) (text : List Char) : List Chunk × Bool :=
  chunkByChars cs co ratio (cleanPipeline text)

/-- The guard-firing example for the fixed chunker: 80 characters with a
sentence delimiter at every index `≡ 3 (mod 4)` from 7 on. -/
def guardExText : List Char :=
  (List.range 80).map (fun i => if i % 4 = 3 ∧ 7 ≤ i then '.' else 'a')

/-- `re.match(r"^(#{1,6})\s+(.+)$", line)` of `TitleChunker._chunk`
(title_chunker.py line 51): `1..6` leading `#` followed by at least one
whitespace character and a non-empty remainder.  Returns the heading level
(`len(group(1))`) and `group(2)`.  When everything after the whitespace run
is empty, regex backtracking hands the last whitespace character to
`group(2)` provided the run has length at least two. -/
def headingMatch (line : List Char) : Option (ℕ × List Char) :=
  let hashes := line.takeWhile (fun c => c == '#')
  let n := hashes.length
  if n = 0 ∨ 6 < n then none
  else
    let rest := line.drop n
    let ws := rest.takeWhile isPyWS
    let body := rest.dropWhile isPyWS
    if ws.isEmpty then none
    else if ¬ body.isEmpty then some (n, body)
    else if 2 ≤ ws.length then some (n, ws.drop (ws.length - 1))
    else none

/-- Python `"\n".join(lines)`. -/
def joinLines (ls : List (List Char)) : List Char := List.intercalate ['\n'] ls

/-- The loop state of `TitleChunker._chunk` (title_chunker.py lines 41-47). -/
structure TitleState where
  chunks : List Chunk
  cur_lines : List (List Char)
  cur_title : List Char
  cur_level : ℕ
  chunk_index : ℕ
  start_index : ℕ
  current_pos : ℕ
deriving DecidableEq

/-- One iteration of the line loop of `TitleChunker._chunk` (title_chunker.py
lines 49-85): on a heading line, flush the accumulated block (if any) as a
chunk carrying the previous heading, then start a new block under the new
heading (seeded with the heading line itself when `include_headers`); on an
ordinary line, accumulate it.  `current_pos` advances by `len(line) + 1` —
one counted newline per line, including the last line.  `flushChunk` is the
chunk built from the accumulated block (title_chunker.py lines 55-66 and
88-100): joined lines, stripped, spanning `[start_index, current_pos)` and
carrying the current title and level. -/
def flushChunk (st : TitleState) : Chunk :=
  { content := pyStrip (joinLines st.cur_lines), chunk_index := st.chunk_index,
    start_index := st.start_index, end_index := st.current_pos,
    title := st.cur_title, title_level := st.cur_level }

def titleStep (include_headers : Bool) (st : TitleState) (line : List Char) :
    TitleState :=
  match headingMatch line with
  | some (lvl, t) =>
    let st1 :=
      if ¬ st.cur_lines.isEmpty then
        { st with
          chunks := st.chunks ++ [flushChunk st],
          chunk_index := st.chunk_index + 1,
          start_index := st.current_pos }
      else st
    { st1 with
      cur_title := pyStrip t, cur_level := lvl,
      cur_lines := if include_headers then [line] else [],
      current_pos := st1.current_pos + line.length + 1 }
  | none =>
    { st with
      cur_lines := st.cur_lines ++ [line],
      current_pos := st.current_pos + line.length + 1 }

/-- `TitleChunker._chunk` (title_chunker.py lines 27-118): clean the text,
split it into lines, run the line loop, flush the trailing block, and fall
back to one whole-text chunk with empty title and level 0 when no chunk was
produced. -/
def titleChunk (include_headers : Bool) (text : List Char) : List Chunk :=
  let cleaned := cleanPipeline text
  let lines := splitOnChar '\n' cleaned
  let st := lines.foldl (titleStep include_headers) ⟨[], [], [], 0, 0, 0, 0⟩
  let chunks :=
    if ¬ st.cur_lines.isEmpty then st.chunks ++ [flushChunk st]
    else st.chunks
  if chunks.isEmpty then
    [{ content := cleaned, chunk_index := 0, start_index := 0,
       end_index := cleaned.length, title := [], title_level := 0 }]
  else chunks

/-- The float comparison
`paragraph_end > start + parent_size * min_content_ratio` deciding whether a
parent window snaps to the last paragraph break
(parent_child_chunker.py line 93). -/
def parentSnapsAt (ps : ℕ) (ratio : ℚ) (start : ℕ) (pe : ℤ) : Bool :=
  decide ((start : ℚ) + (ps : ℚ) * ratio < (pe : ℚ))

/-- Python `text.rfind("\n\n", start, end)`: the largest `i` with
`start ≤ i`, `i + 2 ≤ end` and a double newline at `i`, else `-1`. -/
def rfind2NL (text : List Char) (s e : ℕ) : ℤ :=
  (List.range text.length).foldl (fun acc i =>
    if s ≤ i ∧ i + 2 ≤ e ∧ text.getD i ' ' = '\n' ∧ text.getD (i + 1) ' ' = '\n'
    then (i : ℤ) else acc) (-1)

/-- The end position of one parent window
(`ParentChildChunker._create_parent_chunks`, parent_child_chunker.py lines
86-94): `min(start + parent_size, len)`, snapped forward past the last
paragraph break `\n\n` of the window when one lies beyond
`start + parent_size * min_content_ratio`. -/
def parentEnd (snap : ℕ → ℤ → Bool) (ps : ℕ) (text : List Char) (start : ℕ) : ℕ :=
  let end0 := min (start + ps) text.length
  if end0 < text.length then
    let pe := rfind2NL text start end0
    if snap start pe then (pe + 2).toNat else end0
  else end0

/-- The `while start < len(text)` loop of `_create_parent_chunks`
(parent_child_chunker.py lines 86-112), fuelled; each parent spans
`[start, end)` with stripped content and `start := end` next. -/
def parentLoop (snap : ℕ → ℤ → Bool) (ps : ℕ) (text : List Char) :
    ℕ → ℕ → ℕ → List Chunk
  | 0, _, _ => []
  | fuel + 1, start, pi =>
    if start < text.length then
      let e := parentEnd snap ps text start
      { content := pyStrip (sliceChars text start e), chunk_index := pi,
        start_index := start, end_index := e } ::
        parentLoop snap ps text fuel e (pi + 1)
    else []

/-- `ParentChildChunker._create_parent_chunks` with fuel `len(text)`
(sufficient whenever `parent_size ≥ 1` and `min_content_ratio ≥ 0`, because
every iteration advances `start`). -/
def createParentChunks (ps : ℕ) (ratio : ℚ) (text : List Char) : List Chunk :=
  parentLoop (parentSnapsAt ps ratio) ps text text.length 0 0

/-- One Python slice index resolved against a sequence of length `n`
(CPython `PySlice_AdjustIndices`): a negative index counts from the end, and
the result is clamped into `[0, n]`. -/
def pyIdx (n : ℕ) (i : ℤ) : ℤ :=
  if i < 0 then max 0 ((n : ℤ) + i) else min i (n : ℤ)

/-- Python slicing `text[s:e]` over arbitrary signed indices: both bounds are
resolved with `pyIdx` (so `text[-1:9]` on a 15-element list starts at
position 14 and is empty), and the slice is the elements between the resolved
bounds. -/
def pySlice (text : List Char) (s e : ℤ) : List Char :=
  (text.drop (pyIdx text.length s).toNat).take
    (pyIdx text.length e - pyIdx text.length s).toNat

/-- One window of `_create_child_chunks` (parent_child_chunker.py lines
135-154) at a signed Python-int `start`: raw end `min(start + child_size,
len(text))`; when the window is interior and the overlap is positive, the
window content `text[start:end]` (Python slice semantics — `start` can be
negative) is cut back at the last sentence delimiter when the snap comparison
fires, with `end = start + len(content)` afterwards.  Unlike the fixed
chunker there is no `end <= start` repair. -/
def childStep (snap : ℤ → Bool) (cs co : ℕ) (text : List Char) (start : ℤ) :
    List Char × ℤ :=
  let end0 := min (start + cs) (text.length : ℤ)
  if end0 < (text.length : ℤ) ∧ 0 < co then
    let content0 := pySlice text start end0
    let se := lastDelimIdx content0
    if snap se then
      (content0.take (se + 1).toNat, start + (content0.take (se + 1).toNat).length)
    else (content0, end0)
  else (pySlice text start end0, end0)

/-- The `while start < len(text)` loop of `_create_child_chunks`
(parent_child_chunker.py lines 134-182), fuelled, with `start` a signed
Python int: emit the child spanning `[base+start, base+end)`, break once
`end` reaches the text end, step back to `start = end - child_overlap` —
which can drive `start` negative, as Python subtraction is signed — and break
only when `start >= end`.  The fuel only truncates runs the invariants
theorem's progress hypotheses exclude; every concrete run below terminates
inside its fuel through the source's own break statements. -/
def childLoop (snap : ℤ → Bool) (cs co : ℕ) (text : List Char) (base : ℤ)
    (pidx : ℕ) : ℕ → ℤ → ℕ → List Chunk
  | 0, _, _ => []
  | fuel + 1, start, ci =>
    if start < (text.length : ℤ) then
      let pe := childStep snap cs co text start
      let chunk : Chunk :=
        { content := pyStrip pe.1, chunk_index := ci,
          start_index := base + start, end_index := base + pe.2,
          parent_chunk_id := some pidx }
      if (text.length : ℤ) ≤ pe.2 then [chunk]
      else
        let start' := if 0 < co then pe.2 - co else pe.2
        if pe.2 ≤ start' then [chunk]
        else chunk :: childLoop snap cs co text base pidx fuel start' (ci + 1)
    else []

/-- `ParentChildChunker._create_child_chunks` with fuel `len(text) + 1`. -/
def createChildChunks (snap : ℤ → Bool) (cs co : ℕ) (text : List Char)
    (base : ℤ) (pidx : ℕ) : List Chunk :=
  childLoop snap cs co text base pidx (text.length + 1) 0 0

/-- The assembly loop of `ParentChildChunker._chunk` (parent_child_chunker.py
lines 47-70): each parent is emitted with the running `chunk_index`,
immediately followed by its children generated from the parent's (stripped)
content with offsets based at the parent's `start_index`; every child's
`chunk_index` continues the running counter and its `parent_chunk_id` is
overwritten with the parent's assigned index. -/
def parentChildAssemble (snap : ℤ → Bool) (cs co : ℕ) :
    List Chunk → ℕ → List Chunk
  | [], _ => []
  | p :: rest, idx =>
    let kids := createChildChunks snap cs co p.content p.start_index idx
    let kids' := kids.enum.map (fun q =>
      { q.2 with chunk_index := idx + 1 + q.1, parent_chunk_id := some idx })
    ({ p with chunk_index := idx } :: kids') ++
      parentChildAssemble snap cs co rest (idx + 1 + kids.length)

/-- `ParentChildChunker._chunk` (parent_child_chunker.py lines 30-70): clean
the text, build parent chunks, and interleave each parent with its children
under a single running `chunk_index`; the children's sentence snap uses the
`child_size * min_content_ratio` comparison. -/
def parentChildChunk (ps cs co : ℕ) (ratio : ℚ) (text : List Char) : List Chunk :=
  parentChildAssemble (snapsAt cs ratio) cs co
    (createParentChunks ps ratio (cleanPipeline text)) 0

-- ### helper lemmas on Python-style fold min / fold max
theorem pyMin_le_init (a : ℚ) (l : List ℚ) : pyMin a l ≤ a := by
  induction l generalizing a with
  | nil => simp [pyMin]
  | cons x xs ih =>
    have h := ih (min a x)
    simp only [pyMin, List.foldl_cons] at h ⊢
    exact h.trans (min_le_left a x)

theorem pyMin_le_mem (a x : ℚ) (l : List ℚ) (hx : x ∈ l) : pyMin a l ≤ x := by
  induction l generalizing a with
  | nil => cases hx
  | cons y ys ih =>
    rcases List.mem_cons.mp hx with h | h
    · subst h
      have h1 := pyMin_le_init (min a x) ys
      simp only [pyMin, List.foldl_cons] at h1 ⊢
      exact h1.trans (min_le_right a x)
    · simpa only [pyMin, List.foldl_cons] using ih (min a y) h

theorem pyMin_mem (a : ℚ) (l : List ℚ) : pyMin a l = a ∨ pyMin a l ∈ l := by
  induction l generalizing a with
  | nil => left; rfl
  | cons x xs ih =>
    rcases ih (min a x) with h | h
    · rcases min_cases a x with ⟨he, _⟩ | ⟨he, _⟩
      · left; simpa only [pyMin, List.foldl_cons, he] using h
      · right
        simp only [pyMin, List.foldl_cons] at h ⊢
        rw [h, he]
        exact List.mem_cons_self x xs
    · right
      simp only [pyMin, List.foldl_cons] at h ⊢
      exact List.mem_cons_of_mem x h

theorem init_le_pyMax (a : ℚ) (l : List ℚ) : a ≤ pyMax a l := by
  induction l generalizing a with
  | nil => simp [pyMax]
  | cons x xs ih =>
    have h := ih (max a x)
    simp only [pyMax, List.foldl_cons] at h ⊢
    exact (le_max_left a x).trans h

theorem mem_le_pyMax (a x : ℚ) (l : List ℚ) (hx : x ∈ l) : x ≤ pyMax a l := by
  induction l generalizing a with
  | nil => cases hx
  | cons y ys ih =>
    rcases List.mem_cons.mp hx with h | h
    · subst h
      have h1 := init_le_pyMax (max a x) ys
      simp only [pyMax, List.foldl_cons] at h1 ⊢
      exact (le_max_right a x).trans h1
    · simpa only [pyMax, List.foldl_cons] using ih (max a y) h

theorem pyMax_mem (a : ℚ) (l : List ℚ) : pyMax a l = a ∨ pyMax a l ∈ l := by
  induction l generalizing a with
  | nil => left; rfl
  | cons x xs ih =>
    rcases ih (max a x) with h | h
    · rcases max_cases a x with ⟨he, _⟩ | ⟨he, _⟩
      · left; simpa only [pyMax, List.foldl_cons, he] using h
      · right
        simp only [pyMax, List.foldl_cons] at h ⊢
        rw [h, he]
        exact List.mem_cons_self x xs
    · right
      simp only [pyMax, List.foldl_cons] at h ⊢
      exact List.mem_cons_of_mem x h

theorem pyMin_le_score (r0 : RetrievalResult) (rest : List RetrievalResult)
    (r : RetrievalResult) (hr : r ∈ r0 :: rest) :
    pyMin r0.score (rest.map (·.score)) ≤ r.score := by
  rcases List.mem_cons.mp hr with h | h
  · subst h; exact pyMin_le_init _ _
  · exact pyMin_le_mem _ _ _ (List.mem_map_of_mem (·.score) h)

theorem score_le_pyMax (r0 : RetrievalResult) (rest : List RetrievalResult)
    (r : RetrievalResult) (hr : r ∈ r0 :: rest) :
    r.score ≤ pyMax r0.score (rest.map (·.score)) := by
  rcases List.mem_cons.mp hr with h | h
  · subst h; exact init_le_pyMax _ _
  · exact mem_le_pyMax _ _ _ (List.mem_map_of_mem (·.score) h)

theorem pyMin_is_score (r0 : RetrievalResult) (rest : List RetrievalResult) :
    ∃ r ∈ r0 :: rest, r.score = pyMin r0.score (rest.map (·.score)) := by
  rcases pyMin_mem r0.score (rest.map (·.score)) with h | h
  · exact ⟨r0, List.mem_cons_self _ _, h.symm⟩
  · rcases List.mem_map.mp h with ⟨r, hr, he⟩
    exact ⟨r, List.mem_cons_of_mem _ hr, he⟩

theorem pyMax_is_score (r0 : RetrievalResult) (rest : List RetrievalResult) :
    ∃ r ∈ r0 :: rest, r.score = pyMax r0.score (rest.map (·.score)) := by
  rcases pyMax_mem r0.score (rest.map (·.score)) with h | h
  · exact ⟨r0, List.mem_cons_self _ _, h.symm⟩
  · rcases List.mem_map.mp h with ⟨r, hr, he⟩
    exact ⟨r, List.mem_cons_of_mem _ hr, he⟩

/-- C1.  For every non-empty result list: after `_normalize_scores` every
score lies in `[0,1]`; if the input holds two distinct scores then some
output score is exactly `1` and some output score is exactly `0` (so the
output maximum is `1` and the output minimum is `0`); if all input scores
coincide, every output score is `1`. -/
theorem normalize_scores_minmax (results : List RetrievalResult)
    (hne : results ≠ []) :
    (∀ r ∈ normalizeScores results, 0 ≤ r.score ∧ r.score ≤ 1) ∧
    ((∃ a ∈ results, ∃ b ∈ results, a.score ≠ b.score) →
      (∃ r ∈ normalizeScores results, r.score = 1) ∧
      (∃ r ∈ normalizeScores results, r.score = 0)) ∧
    ((∀ a ∈ results, ∀ b ∈ results, a.score = b.score) →
      ∀ r ∈ normalizeScores results, r.score = 1) := by
  match results with
  | [] => exact absurd rfl hne
  | r0 :: rest =>
    by_cases heq : pyMax r0.score (rest.map (·.score)) = pyMin r0.score (rest.map (·.score))
    · -- degenerate branch: all scores equal
      have hall : ∀ r ∈ r0 :: rest, r.score = pyMin r0.score (rest.map (·.score)) := by
        intro r hr
        have h1 := pyMin_le_score r0 rest r hr
        have h2 := score_le_pyMax r0 rest r hr
        rw [heq] at h2
        exact le_antisymm h2 h1
      by_cases hone : pyMax r0.score (rest.map (·.score)) = 1
      · have hres : normalizeScores (r0 :: rest) = r0 :: rest := by
          simp only [normalizeScores]
          rw [if_pos heq, if_neg (not_not_intro hone)]
        refine ⟨?_, ?_, ?_⟩
        · intro r hr
          rw [hres] at hr
          rw [hall r hr, ← heq, hone]; norm_num
        · intro ⟨a, ha, b, hb, hab⟩
          exact absurd ((hall a ha).trans (hall b hb).symm) hab
        · intro _ r hr
          rw [hres] at hr
          rw [hall r hr, ← heq, hone]
      · have hres : normalizeScores (r0 :: rest) =
            (r0 :: rest).map (fun r => { r with score := 1 }) := by
          simp only [normalizeScores]
          rw [if_pos heq, if_pos hone]
        refine ⟨?_, ?_, ?_⟩
        · intro r hr
          rw [hres] at hr
          rcases List.mem_map.mp hr with ⟨s, _, he⟩
          rw [← he]; norm_num
        · intro ⟨a, ha, b, hb, hab⟩
          exact absurd ((hall a ha).trans (hall b hb).symm) hab
        · intro _ r hr
          rw [hres] at hr
          rcases List.mem_map.mp hr with ⟨s, _, he⟩
          rw [← he]
    · -- distinct min and max
      have hlt : pyMin r0.score (rest.map (·.score)) < pyMax r0.score (rest.map (·.score)) := by
        rcases pyMax_is_score r0 rest with ⟨r, hr, he⟩
        have h1 := pyMin_le_score r0 rest r hr
        rw [he] at h1
        exact lt_of_le_of_ne h1 (fun h => heq h.symm)
      have hpos : 0 < pyMax r0.score (rest.map (·.score)) - pyMin r0.score (rest.map (·.score)) :=
        sub_pos.mpr hlt
      have hres : normalizeScores (r0 :: rest) =
          (r0 :: rest).map (fun r => { r with score :=
            (r.score - pyMin r0.score (rest.map (·.score))) /
            (pyMax r0.score (rest.map (·.score)) - pyMin r0.score (rest.map (·.score))) }) := by
        simp only [normalizeScores, if_neg heq]
      refine ⟨?_, ?_, ?_⟩
      · intro r hr
        rw [hres] at hr
        rcases List.mem_map.mp hr with ⟨s, hs, he⟩
        rw [← he]
        constructor
        · exact div_nonneg (sub_nonneg.mpr (pyMin_le_score r0 rest s hs)) hpos.le
        · show (s.score - _) / _ ≤ 1
          rw [div_le_one hpos]
          have := score_le_pyMax r0 rest s hs
          linarith
      · intro _
        constructor
        · rcases pyMax_is_score r0 rest with ⟨r, hr, he⟩
          refine ⟨_, by rw [hres]; exact List.mem_map_of_mem _ hr, ?_⟩
          show (r.score - _) / _ = 1
          rw [he, div_eq_one_iff_eq hpos.ne']
        · rcases pyMin_is_score r0 rest with ⟨r, hr, he⟩
          refine ⟨_, by rw [hres]; exact List.mem_map_of_mem _ hr, ?_⟩
          show (r.score - _) / _ = 0
          rw [he, sub_self, zero_div]
      · intro hallEq
        exfalso
        rcases pyMax_is_score r0 rest with ⟨a, ha, hea⟩
        rcases pyMin_is_score r0 rest with ⟨b, hb, heb⟩
        have := hallEq a ha b hb
        rw [hea, heb] at this
        exact heq this

/-- Witness for `normalize_scores_minmax` at the concrete input
`[score 3, score 1]`. -/
theorem normalize_scores_minmax_witness :
    ([⟨1, 1, "a", 3⟩, ⟨2, 1, "b", 1⟩] : List RetrievalResult) ≠ [] ∧
    (∀ r ∈ normalizeScores [⟨1, 1, "a", 3⟩, ⟨2, 1, "b", 1⟩],
      0 ≤ r.score ∧ r.score ≤ 1) :=
  ⟨by decide, (normalize_scores_minmax [⟨1, 1, "a", 3⟩, ⟨2, 1, "b", 1⟩] (by decide)).1⟩

-- ### helper lemmas on the stable descending sort
theorem mem_insertDesc (a x : RetrievalResult) (l : List RetrievalResult) :
    x ∈ insertDesc a l ↔ x = a ∨ x ∈ l := by
  induction l with
  | nil => simp [insertDesc]
  | cons b bs ih =>
    simp only [insertDesc]
    by_cases h : a.score < b.score
    · rw [if_pos h]
      simp only [List.mem_cons, ih]
      tauto
    · rw [if_neg h]
      simp only [List.mem_cons]

theorem pairwise_insertDesc (a : RetrievalResult) (l : List RetrievalResult)
    (hl : l.Pairwise (fun x y => y.score ≤ x.score)) :
    (insertDesc a l).Pairwise (fun x y => y.score ≤ x.score) := by
  induction l with
  | nil => simp [insertDesc]
  | cons b bs ih =>
    have hb := List.pairwise_cons.mp hl
    simp only [insertDesc]
    by_cases h : a.score < b.score
    · rw [if_pos h]
      refine List.pairwise_cons.mpr ⟨?_, ih hb.2⟩
      intro x hx
      rcases (mem_insertDesc a x bs).mp hx with he | hm
      · rw [he]; exact h.le
      · exact hb.1 x hm
    · rw [if_neg h]
      refine List.pairwise_cons.mpr ⟨?_, hl⟩
      intro x hx
      rcases List.mem_cons.mp hx with he | hm
      · rw [he]; exact not_lt.mp h
      · exact (hb.1 x hm).trans (not_lt.mp h)

theorem pairwise_sortDesc (l : List RetrievalResult) :
    (sortDesc l).Pairwise (fun x y => y.score ≤ x.score) := by
  induction l with
  | nil => exact List.Pairwise.nil
  | cons a as ih => exact pairwise_insertDesc a (sortDesc as) ih

theorem mem_sortDesc (x : RetrievalResult) (l : List RetrievalResult) :
    x ∈ sortDesc l ↔ x ∈ l := by
  induction l with
  | nil => simp [sortDesc]
  | cons a as ih =>
    show x ∈ insertDesc a (sortDesc as) ↔ _
    rw [mem_insertDesc]
    simp only [List.mem_cons, ih]

theorem length_sortDesc (l : List RetrievalResult) :
    (sortDesc l).length = l.length := by
  have hins : ∀ a m, (insertDesc a m).length = m.length + 1 := by
    intro a m
    induction m with
    | nil => rfl
    | cons b bs ih =>
      simp only [insertDesc]
      by_cases h : a.score < b.score
      · rw [if_pos h]; simp [ih]
      · rw [if_neg h]; simp
  induction l with
  | nil => rfl
  | cons a as ih =>
    show (insertDesc a (sortDesc as)).length = as.length + 1
    rw [hins, ih]

/-- C9.  For any result list and threshold `> 0`, `_filter_by_threshold`
returns exactly the subsequence of results whose score is at least the
threshold, in their original relative order (a score equal to the threshold
is kept); and on the spec scenario — threshold `1/2` against scores
`[1, 3/5, 2/5, 0]` — exactly the first two results survive. -/
theorem filter_by_threshold_subsequence (results : List RetrievalResult)
    (t : ℚ) (ht : 0 < t) :
    (filterByThreshold results t).Sublist results ∧
    (∀ r ∈ filterByThreshold results t, r ∈ results ∧ t ≤ r.score) ∧
    (∀ r ∈ results, t ≤ r.score → r ∈ filterByThreshold results t) ∧
    filterByThreshold
      [⟨1, 1, "a", 1⟩, ⟨2, 1, "b", 3/5⟩, ⟨3, 1, "c", 2/5⟩, ⟨4, 1, "d", 0⟩] (1/2) =
      [⟨1, 1, "a", 1⟩, ⟨2, 1, "b", 3/5⟩] := by
  have hdef : filterByThreshold results t = results.filter (fun r => t ≤ r.score) := by
    simp only [filterByThreshold, if_neg (not_le.mpr ht)]
  refine ⟨?_, ?_, ?_, by norm_num [filterByThreshold, List.filter]⟩
  · rw [hdef]; exact List.filter_sublist results
  · intro r hr
    rw [hdef] at hr
    have := List.mem_filter.mp hr
    exact ⟨this.1, by simpa using this.2⟩
  · intro r hr hs
    rw [hdef]
    exact List.mem_filter.mpr ⟨hr, by simpa using hs⟩

/-- Witness for `filter_by_threshold_subsequence` at threshold `1/2`. -/
theorem filter_by_threshold_subsequence_witness :
    (0 : ℚ) < 1/2 ∧
    filterByThreshold
      [⟨1, 1, "a", 1⟩, ⟨2, 1, "b", 3/5⟩, ⟨3, 1, "c", 2/5⟩, ⟨4, 1, "d", 0⟩] (1/2) =
      [⟨1, 1, "a", 1⟩, ⟨2, 1, "b", 3/5⟩] :=
  ⟨by norm_num,
    (filter_by_threshold_subsequence [] (1/2) (by norm_num)).2.2.2⟩

/-- C10.  If the external cross-encoder raises during `predict`, `_rerank`
returns the input list itself — same elements, same scores, same order, not
truncated to `top_k`; the reorder/truncate postconditions (output sorted
descending by score and capped at `top_k`) hold on the success path where the
model returned one score per result. -/
theorem rerank_error_returns_input (results : List RetrievalResult)
    (top_k : ℕ) (e : String) (scores : List ℚ)
    (hlen : results.length ≤ scores.length) :
    rerank (.error e) results top_k = results ∧
    (rerank (.ok scores) results top_k).length ≤ top_k ∧
    (rerank (.ok scores) results top_k).Pairwise (fun a b => b.score ≤ a.score) := by
  refine ⟨?_, ?_, ?_⟩
  · unfold rerank
    by_cases h : results.isEmpty <;> simp [h]
  · unfold rerank
    by_cases h : results.isEmpty
    · simp only [if_pos h]
      rw [List.isEmpty_iff.mp h]
      simp
    · simp only [if_neg h, if_pos hlen]
      exact List.length_take_le _ _
  · unfold rerank
    by_cases h : results.isEmpty
    · simp only [if_pos h]
      rw [List.isEmpty_iff.mp h]
      simp
    · simp only [if_neg h, if_pos hlen]
      exact List.Pairwise.sublist (List.take_sublist _ _) (pairwise_sortDesc _)

/-- Witness for `rerank_error_returns_input`: a two-element list with a
predict failure, and a successful predict with two scores. -/
theorem rerank_error_returns_input_witness :
    ([⟨1, 1, "a", 1⟩, ⟨2, 1, "b", 0⟩] : List RetrievalResult).length ≤
      ([3, 7] : List ℚ).length ∧
    rerank (.error "boom") [⟨1, 1, "a", 1⟩, ⟨2, 1, "b", 0⟩] 1 =
      [⟨1, 1, "a", 1⟩, ⟨2, 1, "b", 0⟩] :=
  ⟨by decide,
    (rerank_error_returns_input [⟨1, 1, "a", 1⟩, ⟨2, 1, "b", 0⟩] 1 "boom" [3, 7]
      (by decide)).1⟩

-- ### invariants of the fusion dict
theorem mem_updSem_cid (m : List FusionEntry) (r : RetrievalResult) (v : ℚ)
    (e : FusionEntry) (he : e ∈ updSem m r v) :
    e.cid ∈ m.map (·.cid) ∨ e.cid = r.chunk_id := by
  unfold updSem at he
  by_cases h : m.any (fun e => decide (e.cid = r.chunk_id))
  · rw [if_pos h] at he
    rcases List.mem_map.mp he with ⟨e0, he0, hmap⟩
    by_cases hc : e0.cid = r.chunk_id
    · rw [if_pos hc] at hmap
      right; rw [← hmap]; exact hc
    · rw [if_neg hc] at hmap
      left; rw [← hmap]; exact List.mem_map_of_mem _ he0
  · rw [if_neg h] at he
    rcases List.mem_append.mp he with h1 | h1
    · left; exact List.mem_map_of_mem _ h1
    · right; rw [List.mem_singleton.mp h1]

theorem mem_updKey_cid (m : List FusionEntry) (r : RetrievalResult) (v : ℚ)
    (e : FusionEntry) (he : e ∈ updKey m r v) :
    e.cid ∈ m.map (·.cid) ∨ e.cid = r.chunk_id := by
  unfold updKey at he
  by_cases h : m.any (fun e => decide (e.cid = r.chunk_id))
  · rw [if_pos h] at he
    rcases List.mem_map.mp he with ⟨e0, he0, hmap⟩
    by_cases hc : e0.cid = r.chunk_id
    · rw [if_pos hc] at hmap
      right; rw [← hmap]; exact hc
    · rw [if_neg hc] at hmap
      left; rw [← hmap]; exact List.mem_map_of_mem _ he0
  · rw [if_neg h] at he
    rcases List.mem_append.mp he with h1 | h1
    · left; exact List.mem_map_of_mem _ h1
    · right; rw [List.mem_singleton.mp h1]

theorem applySem_cid (ps : List (RetrievalResult × ℚ)) :
    ∀ (m : List FusionEntry), ∀ e ∈ applySem m ps,
      e.cid ∈ m.map (·.cid) ∨ e.cid ∈ ps.map (·.1.chunk_id) := by
  induction ps with
  | nil => intro m e he; left; exact List.mem_map_of_mem _ he
  | cons p ps ih =>
    intro m e he
    rcases ih (updSem m p.1 p.2) e he with h | h
    · rcases List.mem_map.mp h with ⟨e0, he0, hc⟩
      rcases mem_updSem_cid m p.1 p.2 e0 he0 with h1 | h1
      · left; rw [← hc]; exact h1
      · right; rw [← hc, h1]
        exact List.mem_map_of_mem _ (List.mem_cons_self p ps)
    · right
      rcases List.mem_map.mp h with ⟨q, hq, hc⟩
      rw [← hc]
      exact List.mem_map_of_mem _ (List.mem_cons_of_mem p hq)

theorem applyKey_cid (ps : List (RetrievalResult × ℚ)) :
    ∀ (m : List FusionEntry), ∀ e ∈ applyKey m ps,
      e.cid ∈ m.map (·.cid) ∨ e.cid ∈ ps.map (·.1.chunk_id) := by
  induction ps with
  | nil => intro m e he; left; exact List.mem_map_of_mem _ he
  | cons p ps ih =>
    intro m e he
    rcases ih (updKey m p.1 p.2) e he with h | h
    · rcases List.mem_map.mp h with ⟨e0, he0, hc⟩
      rcases mem_updKey_cid m p.1 p.2 e0 he0 with h1 | h1
      · left; rw [← hc]; exact h1
      · right; rw [← hc, h1]
        exact List.mem_map_of_mem _ (List.mem_cons_self p ps)
    · right
      rcases List.mem_map.mp h with ⟨q, hq, hc⟩
      rw [← hc]
      exact List.mem_map_of_mem _ (List.mem_cons_of_mem p hq)

/-- Characterization of `semantic_score` values in the dict: after folding a
sub-list of the contribution pairs `PS` through the semantic-pass update,
every entry's `semS` is either `0` or the contribution of some pair of `PS`
for its own `chunk_id`. -/
theorem applySem_semS (PS : List (RetrievalResult × ℚ)) :
    ∀ (ps : List (RetrievalResult × ℚ)) (m : List FusionEntry),
      (∀ p ∈ ps, p ∈ PS) →
      (∀ e ∈ m, e.semS = 0 ∨ ∃ p ∈ PS, e.cid = p.1.chunk_id ∧ e.semS = p.2) →
      ∀ e ∈ applySem m ps,
        e.semS = 0 ∨ ∃ p ∈ PS, e.cid = p.1.chunk_id ∧ e.semS = p.2 := by
  intro ps
  induction ps with
  | nil => intro m _ hm e he; exact hm e he
  | cons p ps ih =>
    intro m hps hm e he
    refine ih (updSem m p.1 p.2) (fun q hq => hps q (List.mem_cons_of_mem p hq)) ?_ e he
    intro e0 he0
    have hpPS : p ∈ PS := hps p (List.mem_cons_self p ps)
    unfold updSem at he0
    by_cases h : m.any (fun e => decide (e.cid = p.1.chunk_id))
    · rw [if_pos h] at he0
      rcases List.mem_map.mp he0 with ⟨e1, he1, hmap⟩
      by_cases hc : e1.cid = p.1.chunk_id
      · rw [if_pos hc] at hmap
        right
        exact ⟨p, hpPS, by rw [← hmap]; exact ⟨hc, rfl⟩⟩
      · rw [if_neg hc] at hmap
        rw [← hmap]
        exact hm e1 he1
    · rw [if_neg h] at he0
      rcases List.mem_append.mp he0 with h1 | h1
      · exact hm e0 h1
      · right
        rw [List.mem_singleton.mp h1]
        exact ⟨p, hpPS, rfl, rfl⟩

/-- The keyword-pass update never touches an entry's `semantic_score`; fresh
entries it appends carry `semantic_score = 0`. -/
theorem applyKey_semS (P : FusionEntry → Prop)
    (hP : ∀ e, P e → ∀ v, P { e with keyS := v }) (hP0 : ∀ c r v, P ⟨c, r, 0, v⟩) :
    ∀ (ps : List (RetrievalResult × ℚ)) (m : List FusionEntry),
      (∀ e ∈ m, P e) → ∀ e ∈ applyKey m ps, P e := by
  intro ps
  induction ps with
  | nil => intro m hm e he; exact hm e he
  | cons p ps ih =>
    intro m hm e he
    refine ih (updKey m p.1 p.2) ?_ e he
    intro e0 he0
    unfold updKey at he0
    by_cases h : m.any (fun e => decide (e.cid = p.1.chunk_id))
    · rw [if_pos h] at he0
      rcases List.mem_map.mp he0 with ⟨e1, he1, hmap⟩
      by_cases hc : e1.cid = p.1.chunk_id
      · rw [if_pos hc] at hmap
        rw [← hmap]
        exact hP e1 (hm e1 he1) p.2
      · rw [if_neg hc] at hmap
        rw [← hmap]
        exact hm e1 he1
    · rw [if_neg h] at he0
      rcases List.mem_append.mp he0 with h1 | h1
      · exact hm e0 h1
      · rw [List.mem_singleton.mp h1]
        exact hP0 _ _ _

/-- Mirror of `applySem_semS` for the keyword pass. -/
theorem applyKey_keyS (PS : List (RetrievalResult × ℚ)) :
    ∀ (ps : List (RetrievalResult × ℚ)) (m : List FusionEntry),
      (∀ p ∈ ps, p ∈ PS) →
      (∀ e ∈ m, e.keyS = 0 ∨ ∃ p ∈ PS, e.cid = p.1.chunk_id ∧ e.keyS = p.2) →
      ∀ e ∈ applyKey m ps,
        e.keyS = 0 ∨ ∃ p ∈ PS, e.cid = p.1.chunk_id ∧ e.keyS = p.2 := by
  intro ps
  induction ps with
  | nil => intro m _ hm e he; exact hm e he
  | cons p ps ih =>
    intro m hps hm e he
    refine ih (updKey m p.1 p.2) (fun q hq => hps q (List.mem_cons_of_mem p hq)) ?_ e he
    intro e0 he0
    have hpPS : p ∈ PS := hps p (List.mem_cons_self p ps)
    unfold updKey at he0
    by_cases h : m.any (fun e => decide (e.cid = p.1.chunk_id))
    · rw [if_pos h] at he0
      rcases List.mem_map.mp he0 with ⟨e1, he1, hmap⟩
      by_cases hc : e1.cid = p.1.chunk_id
      · rw [if_pos hc] at hmap
        right
        exact ⟨p, hpPS, by rw [← hmap]; exact ⟨hc, rfl⟩⟩
      · rw [if_neg hc] at hmap
        rw [← hmap]
        exact hm e1 he1
    · rw [if_neg h] at he0
      rcases List.mem_append.mp he0 with h1 | h1
      · exact hm e0 h1
      · right
        rw [List.mem_singleton.mp h1]
        exact ⟨p, hpPS, rfl, rfl⟩

/-- The semantic pass leaves every entry's `keyword_score` at `0`. -/
theorem applySem_keyS :
    ∀ (ps : List (RetrievalResult × ℚ)) (m : List FusionEntry),
      (∀ e ∈ m, e.keyS = 0) → ∀ e ∈ applySem m ps, e.keyS = 0 := by
  intro ps
  induction ps with
  | nil => intro m hm e he; exact hm e he
  | cons p ps ih =>
    intro m hm e he
    refine ih (updSem m p.1 p.2) ?_ e he
    intro e0 he0
    unfold updSem at he0
    by_cases h : m.any (fun e => decide (e.cid = p.1.chunk_id))
    · rw [if_pos h] at he0
      rcases List.mem_map.mp he0 with ⟨e1, he1, hmap⟩
      by_cases hc : e1.cid = p.1.chunk_id
      · rw [if_pos hc] at hmap; rw [← hmap]; exact hm e1 he1
      · rw [if_neg hc] at hmap; rw [← hmap]; exact hm e1 he1
    · rw [if_neg h] at he0
      rcases List.mem_append.mp he0 with h1 | h1
      · exact hm e0 h1
      · rw [List.mem_singleton.mp h1]

/-- Every dict entry records its own result: `e.cid = e.result.chunk_id`,
and the fused score of an entry with a given `chunk_id` is determined. -/
theorem updSem_cid_result (m : List FusionEntry) (r : RetrievalResult) (v : ℚ)
    (hm : ∀ e ∈ m, e.cid = e.result.chunk_id) :
    ∀ e ∈ updSem m r v, e.cid = e.result.chunk_id := by
  intro e he
  unfold updSem at he
  by_cases h : m.any (fun e => decide (e.cid = r.chunk_id))
  · rw [if_pos h] at he
    rcases List.mem_map.mp he with ⟨e1, he1, hmap⟩
    by_cases hc : e1.cid = r.chunk_id
    · rw [if_pos hc] at hmap; rw [← hmap]; exact hm e1 he1
    · rw [if_neg hc] at hmap; rw [← hmap]; exact hm e1 he1
  · rw [if_neg h] at he
    rcases List.mem_append.mp he with h1 | h1
    · exact hm e h1
    · rw [List.mem_singleton.mp h1]

theorem updKey_cid_result (m : List FusionEntry) (r : RetrievalResult) (v : ℚ)
    (hm : ∀ e ∈ m, e.cid = e.result.chunk_id) :
    ∀ e ∈ updKey m r v, e.cid = e.result.chunk_id := by
  intro e he
  unfold updKey at he
  by_cases h : m.any (fun e => decide (e.cid = r.chunk_id))
  · rw [if_pos h] at he
    rcases List.mem_map.mp he with ⟨e1, he1, hmap⟩
    by_cases hc : e1.cid = r.chunk_id
    · rw [if_pos hc] at hmap; rw [← hmap]; exact hm e1 he1
    · rw [if_neg hc] at hmap; rw [← hmap]; exact hm e1 he1
  · rw [if_neg h] at he
    rcases List.mem_append.mp he with h1 | h1
    · exact hm e h1
    · rw [List.mem_singleton.mp h1]

theorem applySem_cid_result (ps : List (RetrievalResult × ℚ)) :
    ∀ (m : List FusionEntry), (∀ e ∈ m, e.cid = e.result.chunk_id) →
      ∀ e ∈ applySem m ps, e.cid = e.result.chunk_id := by
  induction ps with
  | nil => intro m hm e he; exact hm e he
  | cons p ps ih =>
    intro m hm e he
    exact ih (updSem m p.1 p.2) (updSem_cid_result m p.1 p.2 hm) e he

theorem applyKey_cid_result (ps : List (RetrievalResult × ℚ)) :
    ∀ (m : List FusionEntry), (∀ e ∈ m, e.cid = e.result.chunk_id) →
      ∀ e ∈ applyKey m ps, e.cid = e.result.chunk_id := by
  induction ps with
  | nil => intro m hm e he; exact hm e he
  | cons p ps ih =>
    intro m hm e he
    exact ih (updKey m p.1 p.2) (updKey_cid_result m p.1 p.2 hm) e he

/-- If no pair of `ps` carries the chunk id `x`, the unique entry `E` for `x`
survives the semantic pass untouched and stays unique. -/
theorem applySem_preserve (x : ℕ) (E : FusionEntry) (hEx : E.cid = x) :
    ∀ (ps : List (RetrievalResult × ℚ)) (m : List FusionEntry),
      (∀ p ∈ ps, p.1.chunk_id ≠ x) →
      E ∈ m → (∀ e ∈ m, e.cid = x → e = E) →
      E ∈ applySem m ps ∧ ∀ e ∈ applySem m ps, e.cid = x → e = E := by
  intro ps
  induction ps with
  | nil => intro m _ hE huniq; exact ⟨hE, huniq⟩
  | cons p ps ih =>
    intro m hps hE huniq
    have hpx : p.1.chunk_id ≠ x := hps p (List.mem_cons_self p ps)
    have step : E ∈ updSem m p.1 p.2 ∧ ∀ e ∈ updSem m p.1 p.2, e.cid = x → e = E := by
      unfold updSem
      by_cases h : m.any (fun e => decide (e.cid = p.1.chunk_id))
      · rw [if_pos h]
        constructor
        · have : (if E.cid = p.1.chunk_id then { E with semS := p.2 } else E) = E := by
            rw [if_neg (by rw [hEx]; exact fun hc => hpx hc.symm)]
          rw [← this]
          exact List.mem_map_of_mem _ hE
        · intro e he hex
          rcases List.mem_map.mp he with ⟨e1, he1, hmap⟩
          by_cases hc : e1.cid = p.1.chunk_id
          · rw [if_pos hc] at hmap
            exfalso
            apply hpx
            rw [← hc]
            show e1.cid = x
            rw [← hmap] at hex
            exact hex
          · rw [if_neg hc] at hmap
            rw [← hmap] at hex ⊢
            exact huniq e1 he1 hex
      · rw [if_neg h]
        constructor
        · exact List.mem_append_left _ hE
        · intro e he hex
          rcases List.mem_append.mp he with h1 | h1
          · exact huniq e h1 hex
          · exfalso
            rw [List.mem_singleton.mp h1] at hex
            exact hpx hex
    exact ih (updSem m p.1 p.2) (fun q hq => hps q (List.mem_cons_of_mem p hq)) step.1 step.2

/-- Mirror of `applySem_preserve` for the keyword pass. -/
theorem applyKey_preserve (x : ℕ) (E : FusionEntry) (hEx : E.cid = x) :
    ∀ (ps : List (RetrievalResult × ℚ)) (m : List FusionEntry),
      (∀ p ∈ ps, p.1.chunk_id ≠ x) →
      E ∈ m → (∀ e ∈ m, e.cid = x → e = E) →
      E ∈ applyKey m ps ∧ ∀ e ∈ applyKey m ps, e.cid = x → e = E := by
  intro ps
  induction ps with
  | nil => intro m _ hE huniq; exact ⟨hE, huniq⟩
  | cons p ps ih =>
    intro m hps hE huniq
    have hpx : p.1.chunk_id ≠ x := hps p (List.mem_cons_self p ps)
    have step : E ∈ updKey m p.1 p.2 ∧ ∀ e ∈ updKey m p.1 p.2, e.cid = x → e = E := by
      unfold updKey
      by_cases h : m.any (fun e => decide (e.cid = p.1.chunk_id))
      · rw [if_pos h]
        constructor
        · have : (if E.cid = p.1.chunk_id then { E with keyS := p.2 } else E) = E := by
            rw [if_neg (by rw [hEx]; exact fun hc => hpx hc.symm)]
          rw [← this]
          exact List.mem_map_of_mem _ hE
        · intro e he hex
          rcases List.mem_map.mp he with ⟨e1, he1, hmap⟩
          by_cases hc : e1.cid = p.1.chunk_id
          · rw [if_pos hc] at hmap
            exfalso
            apply hpx
            rw [← hc]
            show e1.cid = x
            rw [← hmap] at hex
            exact hex
          · rw [if_neg hc] at hmap
            rw [← hmap] at hex ⊢
            exact huniq e1 he1 hex
      · rw [if_neg h]
        constructor
        · exact List.mem_append_left _ hE
        · intro e he hex
          rcases List.mem_append.mp he with h1 | h1
          · exact huniq e h1 hex
          · exfalso
            rw [List.mem_singleton.mp h1] at hex
            exact hpx hex
    exact ih (updKey m p.1 p.2) (fun q hq => hps q (List.mem_cons_of_mem p hq)) step.1 step.2

/-- Updating the keyword score of the unique entry for `r.chunk_id`. -/
theorem updKey_update (m : List FusionEntry) (r : RetrievalResult) (v : ℚ)
    (E : FusionEntry) (hE : E ∈ m) (hcid : E.cid = r.chunk_id)
    (huniq : ∀ e ∈ m, e.cid = r.chunk_id → e = E) :
    ({ E with keyS := v } : FusionEntry) ∈ updKey m r v ∧
    ∀ e ∈ updKey m r v, e.cid = r.chunk_id → e = { E with keyS := v } := by
  have hany : m.any (fun e => decide (e.cid = r.chunk_id)) := by
    rw [List.any_eq_true]
    exact ⟨E, hE, by rw [decide_eq_true_eq]; exact hcid⟩
  unfold updKey
  rw [if_pos hany]
  constructor
  · have : (if E.cid = r.chunk_id then { E with keyS := v } else E) =
        ({ E with keyS := v } : FusionEntry) := by rw [if_pos hcid]
    rw [← this]
    exact List.mem_map_of_mem _ hE
  · intro e he hex
    rcases List.mem_map.mp he with ⟨e1, he1, hmap⟩
    by_cases hc : e1.cid = r.chunk_id
    · rw [if_pos hc] at hmap
      rw [← hmap, huniq e1 he1 hc]
    · rw [if_neg hc] at hmap
      rw [← hmap] at hex
      exact absurd hex hc

-- ### enumeration and sorting support
theorem enumFrom_cons_eq {α : Type} (n : ℕ) (a : α) (l : List α) :
    List.enumFrom n (a :: l) = (n, a) :: List.enumFrom (n + 1) l := rfl

theorem mem_enumFrom_ge {α : Type} (l : List α) :
    ∀ (n : ℕ) (q : ℕ × α), q ∈ List.enumFrom n l → n ≤ q.1 := by
  induction l with
  | nil => intro n q hq; cases hq
  | cons a as ih =>
    intro n q hq
    rw [enumFrom_cons_eq] at hq
    rcases List.mem_cons.mp hq with he | hm
    · rw [he]
    · exact (Nat.le_succ n).trans (ih (n + 1) q hm)

theorem mem_enumFrom_snd {α : Type} (l : List α) :
    ∀ (n : ℕ) (q : ℕ × α), q ∈ List.enumFrom n l → q.2 ∈ l := by
  induction l with
  | nil => intro n q hq; cases hq
  | cons a as ih =>
    intro n q hq
    rw [enumFrom_cons_eq] at hq
    rcases List.mem_cons.mp hq with he | hm
    · rw [he]; exact List.mem_cons_self a as
    · exact List.mem_cons_of_mem a (ih (n + 1) q hm)

theorem enumFrom_map_snd {α : Type} (l : List α) :
    ∀ n : ℕ, (List.enumFrom n l).map Prod.snd = l := by
  induction l with
  | nil => intro n; rfl
  | cons a as ih =>
    intro n
    rw [enumFrom_cons_eq, List.map_cons, ih]

theorem rrfPairs_cids (k : ℚ) (l : List RetrievalResult) :
    (rrfPairs k l).map (·.1.chunk_id) = l.map (·.chunk_id) := by
  unfold rrfPairs
  rw [List.map_map]
  have h2 : ((fun p : RetrievalResult × ℚ => p.1.chunk_id) ∘
      (fun p : ℕ × RetrievalResult => (p.2, 1 / (k + (p.1 + 1))))) =
      ((fun r : RetrievalResult => r.chunk_id) ∘ Prod.snd) := rfl
  rw [h2, ← List.map_map]
  show ((List.enumFrom 0 l).map Prod.snd).map _ = _
  rw [enumFrom_map_snd]

theorem sortDesc_head_strict_max (l : List RetrievalResult) (z : RetrievalResult)
    (hz : z ∈ l) (hmax : ∀ y ∈ l, y ≠ z → y.score < z.score) :
    (sortDesc l).head? = some z := by
  cases hsd : sortDesc l with
  | nil =>
    exfalso
    have := (mem_sortDesc z l).mpr hz
    rw [hsd] at this
    cases this
  | cons y0 ys =>
    have hy0 : y0 ∈ l := (mem_sortDesc y0 l).mp (by rw [hsd]; exact List.mem_cons_self _ _)
    by_cases h : y0 = z
    · rw [h]; rfl
    · exfalso
      have hzs : z ∈ y0 :: ys := by rw [← hsd]; exact (mem_sortDesc z l).mpr hz
      rcases List.mem_cons.mp hzs with he | hm
      · exact h he.symm
      · have hp := pairwise_sortDesc l
        rw [hsd] at hp
        have hle := (List.pairwise_cons.mp hp).1 z hm
        exact absurd hle (not_le.mpr (hmax y0 hy0 h))

theorem head_take_of_pos {α : Type} (n : ℕ) (hn : 1 ≤ n) (l : List α) :
    (l.take n).head? = l.head? := by
  cases n with
  | zero => exact absurd hn (by norm_num)
  | succ m => cases l <;> simp

/-- Any RRF contribution of `rrfPairs 60` taken from a position after the
head is at most `1/62`. -/
theorem rrfPairs_tail_le (r0 : RetrievalResult) (rrest : List RetrievalResult)
    (p : RetrievalResult × ℚ) (hp : p ∈ rrfPairs 60 (r0 :: rrest))
    (hpx : p.1.chunk_id ≠ r0.chunk_id) : p.2 ≤ 1/62 := by
  have hdec : rrfPairs 60 (r0 :: rrest)
      = (r0, 1 / (60 + (((0:ℕ):ℚ) + 1))) :: (List.enumFrom 1 rrest).map
          (fun q => (q.2, 1 / (60 + ((q.1 : ℚ) + 1)))) := rfl
  rw [hdec] at hp
  rcases List.mem_cons.mp hp with he | hm
  · exfalso; apply hpx; rw [he]
  · rcases List.mem_map.mp hm with ⟨q, hq, he⟩
    have h1 : 1 ≤ q.1 := mem_enumFrom_ge rrest 1 q hq
    have h1q : (1:ℚ) ≤ (q.1 : ℚ) := by exact_mod_cast h1
    rw [← he]
    show 1 / (60 + ((q.1 : ℚ) + 1)) ≤ 1/62
    exact one_div_le_one_div_of_le (by norm_num) (by linarith)

/-- C2.  RRF fusion with `rrf_k = 60` and equal positive weights `w`: an item
ranked first in both source lists is ranked first in the fused output, its
fused score is exactly `w/61 + w/61`, every other output item scores strictly
less, and every output item originates from one of the two source lists (an
item in neither list never appears).  On the spec scenario — semantic
`[A,B,C]`, keyword `[B,C,D]`, ids `1,2,3` and `2,3,4` — the fused order of
chunk ids is `[2, 3, 1, 4]`: `B` outranks both `A` and `D`. -/
theorem rrf_fusion_first_in_both_wins (w : ℚ) (hw : 0 < w)
    (s0 k0 : RetrievalResult) (srest krest : List RetrievalResult)
    (x : ℕ) (hs0 : s0.chunk_id = x) (hk0 : k0.chunk_id = x)
    (hnds : ((s0 :: srest).map (·.chunk_id)).Nodup)
    (hndk : ((k0 :: krest).map (·.chunk_id)).Nodup)
    (top_k : ℕ) (htk : 1 ≤ top_k) :
    ((rrfFusion 60 w w (s0 :: srest) (k0 :: krest) top_k).head?.map (·.chunk_id)
      = some x) ∧
    (∀ r ∈ rrfFusion 60 w w (s0 :: srest) (k0 :: krest) top_k,
      r.chunk_id ∈ (s0 :: srest).map (·.chunk_id) ∨
      r.chunk_id ∈ (k0 :: krest).map (·.chunk_id)) ∧
    (∀ r ∈ rrfFusion 60 w w (s0 :: srest) (k0 :: krest) top_k,
      (r.chunk_id = x → r.score = w * (1/61) + w * (1/61)) ∧
      (r.chunk_id ≠ x → r.score < w * (1/61) + w * (1/61))) ∧
    (rrfFusion 60 (1/2) (1/2)
        [⟨1, 1, "A", 1⟩, ⟨2, 1, "B", 2/3⟩, ⟨3, 1, "C", 1/3⟩]
        [⟨2, 1, "B", 1⟩, ⟨3, 1, "C", 1/2⟩, ⟨4, 1, "D", 1/4⟩] 10).map (·.chunk_id)
      = [2, 3, 1, 4] := by
  rw [List.map_cons] at hnds hndk
  have hs_not : x ∉ srest.map (·.chunk_id) := by
    rw [← hs0]; exact (List.nodup_cons.mp hnds).1
  have hk_not : x ∉ krest.map (·.chunk_id) := by
    rw [← hk0]; exact (List.nodup_cons.mp hndk).1
  have hrest1 : ∀ p ∈ (List.enumFrom 1 srest).map
      (fun q => (q.2, 1 / (60 + ((q.1 : ℚ) + 1)))), p.1.chunk_id ≠ x := by
    intro p hp hpx
    rcases List.mem_map.mp hp with ⟨q, hq, he⟩
    apply hs_not
    rw [← hpx, ← he]
    exact List.mem_map_of_mem _ (mem_enumFrom_snd srest 1 q hq)
  have hrest2 : ∀ p ∈ (List.enumFrom 1 krest).map
      (fun q => (q.2, 1 / (60 + ((q.1 : ℚ) + 1)))), p.1.chunk_id ≠ x := by
    intro p hp hpx
    rcases List.mem_map.mp hp with ⟨q, hq, he⟩
    apply hk_not
    rw [← hpx, ← he]
    exact List.mem_map_of_mem _ (mem_enumFrom_snd krest 1 q hq)
  -- the entry created for the head of the semantic list
  have hE0cid : (⟨s0.chunk_id, s0, 1 / (60 + (((0:ℕ):ℚ) + 1)), 0⟩ : FusionEntry).cid = x :=
    hs0
  have hE0m1 := applySem_preserve x ⟨s0.chunk_id, s0, 1 / (60 + (((0:ℕ):ℚ) + 1)), 0⟩
    hE0cid
    ((List.enumFrom 1 srest).map (fun q => (q.2, 1 / (60 + ((q.1 : ℚ) + 1)))))
    [⟨s0.chunk_id, s0, 1 / (60 + (((0:ℕ):ℚ) + 1)), 0⟩]
    hrest1 (List.mem_singleton.mpr rfl)
    (fun e he _ => List.mem_singleton.mp he)
  -- phase 1 result, by definitional unfolding of the first fold step
  have hstep1 : applySem [] (rrfPairs 60 (s0 :: srest))
      = applySem [⟨s0.chunk_id, s0, 1 / (60 + (((0:ℕ):ℚ) + 1)), 0⟩]
          ((List.enumFrom 1 srest).map (fun q => (q.2, 1 / (60 + ((q.1 : ℚ) + 1))))) := rfl
  have hE0M1 : (⟨s0.chunk_id, s0, 1 / (60 + (((0:ℕ):ℚ) + 1)), 0⟩ : FusionEntry)
      ∈ applySem [] (rrfPairs 60 (s0 :: srest)) := by rw [hstep1]; exact hE0m1.1
  have hE0uniq : ∀ e ∈ applySem [] (rrfPairs 60 (s0 :: srest)), e.cid = x →
      e = ⟨s0.chunk_id, s0, 1 / (60 + (((0:ℕ):ℚ) + 1)), 0⟩ := by
    rw [hstep1]; exact hE0m1.2
  -- phase 2: the head of the keyword list updates that entry's keyword score
  have hupd := updKey_update (applySem [] (rrfPairs 60 (s0 :: srest))) k0
    (1 / (60 + (((0:ℕ):ℚ) + 1)))
    ⟨s0.chunk_id, s0, 1 / (60 + (((0:ℕ):ℚ) + 1)), 0⟩
    hE0M1 (by show s0.chunk_id = k0.chunk_id; rw [hs0, hk0])
    (fun e he hc => hE0uniq e he (hc.trans hk0))
  have hE2cid :
      ({ cid := s0.chunk_id, result := s0, semS := 1 / (60 + (((0:ℕ):ℚ) + 1)),
         keyS := 1 / (60 + (((0:ℕ):ℚ) + 1)) } : FusionEntry).cid = x := hs0
  have hE2m2 := applyKey_preserve x
    ⟨s0.chunk_id, s0, 1 / (60 + (((0:ℕ):ℚ) + 1)), 1 / (60 + (((0:ℕ):ℚ) + 1))⟩
    hE2cid
    ((List.enumFrom 1 krest).map (fun q => (q.2, 1 / (60 + ((q.1 : ℚ) + 1)))))
    (updKey (applySem [] (rrfPairs 60 (s0 :: srest))) k0 (1 / (60 + (((0:ℕ):ℚ) + 1))))
    hrest2 hupd.1 (fun e he hc => hupd.2 e he (hc.trans hk0.symm))
  have hstep2 : applyKey (applySem [] (rrfPairs 60 (s0 :: srest)))
        (rrfPairs 60 (k0 :: krest))
      = applyKey
          (updKey (applySem [] (rrfPairs 60 (s0 :: srest))) k0
            (1 / (60 + (((0:ℕ):ℚ) + 1))))
          ((List.enumFrom 1 krest).map (fun q => (q.2, 1 / (60 + ((q.1 : ℚ) + 1))))) := rfl
  have hE2M2 :
      (⟨s0.chunk_id, s0, 1 / (60 + (((0:ℕ):ℚ) + 1)), 1 / (60 + (((0:ℕ):ℚ) + 1))⟩ :
        FusionEntry)
      ∈ applyKey (applySem [] (rrfPairs 60 (s0 :: srest))) (rrfPairs 60 (k0 :: krest)) := by
    rw [hstep2]; exact hE2m2.1
  have hE2uniq : ∀ e ∈ applyKey (applySem [] (rrfPairs 60 (s0 :: srest)))
      (rrfPairs 60 (k0 :: krest)), e.cid = x →
      e = ⟨s0.chunk_id, s0, 1 / (60 + (((0:ℕ):ℚ) + 1)), 1 / (60 + (((0:ℕ):ℚ) + 1))⟩ := by
    rw [hstep2]; exact hE2m2.2
  -- score characterizations of every entry of the final dict
  have hsemC : ∀ e ∈ applyKey (applySem [] (rrfPairs 60 (s0 :: srest)))
      (rrfPairs 60 (k0 :: krest)),
      e.semS = 0 ∨ ∃ p ∈ rrfPairs 60 (s0 :: srest), e.cid = p.1.chunk_id ∧ e.semS = p.2 :=
    applyKey_semS
      (fun e => e.semS = 0 ∨ ∃ p ∈ rrfPairs 60 (s0 :: srest),
        e.cid = p.1.chunk_id ∧ e.semS = p.2)
      (fun _ hPe _ => hPe) (fun _ _ _ => Or.inl rfl)
      (rrfPairs 60 (k0 :: krest)) (applySem [] (rrfPairs 60 (s0 :: srest)))
      (applySem_semS (rrfPairs 60 (s0 :: srest)) (rrfPairs 60 (s0 :: srest)) []
        (fun _ hp => hp) (fun e he => absurd he (List.not_mem_nil e)))
  have hkeyC : ∀ e ∈ applyKey (applySem [] (rrfPairs 60 (s0 :: srest)))
      (rrfPairs 60 (k0 :: krest)),
      e.keyS = 0 ∨ ∃ p ∈ rrfPairs 60 (k0 :: krest), e.cid = p.1.chunk_id ∧ e.keyS = p.2 :=
    applyKey_keyS (rrfPairs 60 (k0 :: krest)) (rrfPairs 60 (k0 :: krest))
      (applySem [] (rrfPairs 60 (s0 :: srest))) (fun _ hp => hp)
      (fun e he => Or.inl (applySem_keyS (rrfPairs 60 (s0 :: srest)) []
        (fun e' he' => absurd he' (List.not_mem_nil e')) e he))
  -- strict score bound for every entry other than the double-first one
  have hEnt : ∀ e ∈ applyKey (applySem [] (rrfPairs 60 (s0 :: srest)))
      (rrfPairs 60 (k0 :: krest)), e.cid ≠ x →
      w * e.semS + w * e.keyS < w * (1/61) + w * (1/61) := by
    intro e heM hex
    have hsemLe : e.semS ≤ 1/62 := by
      rcases hsemC e heM with h0 | ⟨p, hp, hcid, hval⟩
      · rw [h0]; norm_num
      · rw [hval]
        exact rrfPairs_tail_le s0 srest p hp
          (fun hc => hex (by rw [hcid, hc, hs0]))
    have hkeyLe : e.keyS ≤ 1/62 := by
      rcases hkeyC e heM with h0 | ⟨p, hp, hcid, hval⟩
      · rw [h0]; norm_num
      · rw [hval]
        exact rrfPairs_tail_le k0 krest p hp
          (fun hc => hex (by rw [hcid, hc, hk0]))
    have h1 : w * e.semS ≤ w * (1/62) := mul_le_mul_of_nonneg_left hsemLe hw.le
    have h2 : w * e.keyS ≤ w * (1/62) := mul_le_mul_of_nonneg_left hkeyLe hw.le
    have h3 : w * (1/62) < w * (1/61) :=
      mul_lt_mul_of_pos_left (by norm_num) hw
    linarith
  -- the fused element of the double-first entry
  have hfus : rrfFusion 60 w w (s0 :: srest) (k0 :: krest) top_k
      = (sortDesc ((applyKey (applySem [] (rrfPairs 60 (s0 :: srest)))
          (rrfPairs 60 (k0 :: krest))).map
            (fun e => { e.result with score := w * e.semS + w * e.keyS }))).take top_k :=
    rfl
  have hz : ({ s0 with score :=
        w * (1 / (60 + (((0:ℕ):ℚ) + 1))) + w * (1 / (60 + (((0:ℕ):ℚ) + 1))) } :
      RetrievalResult)
      ∈ (applyKey (applySem [] (rrfPairs 60 (s0 :: srest)))
          (rrfPairs 60 (k0 :: krest))).map
            (fun e => { e.result with score := w * e.semS + w * e.keyS }) :=
    List.mem_map_of_mem _ hE2M2
  have hzscore : ({ s0 with score :=
        w * (1 / (60 + (((0:ℕ):ℚ) + 1))) + w * (1 / (60 + (((0:ℕ):ℚ) + 1))) } :
      RetrievalResult).score = w * (1/61) + w * (1/61) := by
    show w * (1 / (60 + (((0:ℕ):ℚ) + 1))) + w * (1 / (60 + (((0:ℕ):ℚ) + 1)))
        = w * (1/61) + w * (1/61)
    norm_num
  have hmax : ∀ y ∈ (applyKey (applySem [] (rrfPairs 60 (s0 :: srest)))
      (rrfPairs 60 (k0 :: krest))).map
        (fun e => { e.result with score := w * e.semS + w * e.keyS }),
      y ≠ { s0 with score :=
        w * (1 / (60 + (((0:ℕ):ℚ) + 1))) + w * (1 / (60 + (((0:ℕ):ℚ) + 1))) } →
      y.score < ({ s0 with score :=
        w * (1 / (60 + (((0:ℕ):ℚ) + 1))) + w * (1 / (60 + (((0:ℕ):ℚ) + 1))) } :
          RetrievalResult).score := by
    intro y hy hyz
    rcases List.mem_map.mp hy with ⟨e, heM, hemap⟩
    by_cases hex : e.cid = x
    · exfalso
      apply hyz
      rw [← hemap, hE2uniq e heM hex]
    · rw [← hemap]
      show w * e.semS + w * e.keyS < _
      rw [hzscore]
      exact hEnt e heM hex
  have hhead := sortDesc_head_strict_max _ _ hz hmax
  refine ⟨?_, ?_, ?_, ?_⟩
  · rw [hfus, head_take_of_pos top_k htk, hhead]
    show some s0.chunk_id = some x
    rw [hs0]
  · intro r hr
    rw [hfus] at hr
    have hr2 := (mem_sortDesc r _).mp (List.take_subset _ _ hr)
    rcases List.mem_map.mp hr2 with ⟨e, heM, hemap⟩
    have hcidres : e.cid = e.result.chunk_id :=
      applyKey_cid_result (rrfPairs 60 (k0 :: krest))
        (applySem [] (rrfPairs 60 (s0 :: srest)))
        (applySem_cid_result (rrfPairs 60 (s0 :: srest)) []
          (fun e' he' => absurd he' (List.not_mem_nil e'))) e heM
    have hrcid : r.chunk_id = e.cid := by
      rw [← hemap]; exact hcidres.symm
    rcases applyKey_cid (rrfPairs 60 (k0 :: krest))
        (applySem [] (rrfPairs 60 (s0 :: srest))) e heM with h1 | h1
    · rcases List.mem_map.mp h1 with ⟨e1, he1, hce⟩
      rcases applySem_cid (rrfPairs 60 (s0 :: srest)) [] e1 he1 with h2 | h2
      · rw [List.map_nil] at h2; cases h2
      · left
        rw [hrcid, ← hce]
        rw [rrfPairs_cids] at h2
        exact h2
    · right
      rw [hrcid]
      rw [rrfPairs_cids] at h1
      exact h1
  · intro r hr
    rw [hfus] at hr
    have hr2 := (mem_sortDesc r _).mp (List.take_subset _ _ hr)
    rcases List.mem_map.mp hr2 with ⟨e, heM, hemap⟩
    have hcidres : e.cid = e.result.chunk_id :=
      applyKey_cid_result (rrfPairs 60 (k0 :: krest))
        (applySem [] (rrfPairs 60 (s0 :: srest)))
        (applySem_cid_result (rrfPairs 60 (s0 :: srest)) []
          (fun e' he' => absurd he' (List.not_mem_nil e'))) e heM
    have hrcid : r.chunk_id = e.cid := by
      rw [← hemap]; exact hcidres.symm
    constructor
    · intro hx'
      have heE2 := hE2uniq e heM (by rw [← hrcid]; exact hx')
      rw [← hemap, heE2]
      show w * (1 / (60 + (((0:ℕ):ℚ) + 1))) + w * (1 / (60 + (((0:ℕ):ℚ) + 1)))
          = w * (1/61) + w * (1/61)
      norm_num
    · intro hx'
      rw [← hemap]
      show w * e.semS + w * e.keyS < _
      exact hEnt e heM (by rw [← hrcid]; exact hx')
  · norm_num [rrfFusion, rrfPairs, applySem, applyKey, updSem, updKey, sortDesc,
      insertDesc, List.enum, List.enumFrom]

/-- Witness for `rrf_fusion_first_in_both_wins`: chunk `5` is first in both
source lists, so it heads the fused output. -/
theorem rrf_fusion_first_in_both_wins_witness :
    (0:ℚ) < 1/2 ∧
    ((rrfFusion 60 (1/2) (1/2)
        [⟨5, 1, "x", 1⟩, ⟨6, 1, "y", 1/2⟩] [⟨5, 1, "x", 1⟩] 3).head?.map (·.chunk_id)
      = some 5) :=
  ⟨by norm_num,
    (rrf_fusion_first_in_both_wins (1/2) (by norm_num)
      ⟨5, 1, "x", 1⟩ ⟨5, 1, "x", 1⟩ [⟨6, 1, "y", 1/2⟩] [] 5 rfl rfl
      (by decide) (by decide) 3 (by norm_num)).1⟩

theorem weightedNormalize_cids (l : List RetrievalResult) :
    (weightedNormalize l).map (·.chunk_id) = l.map (·.chunk_id) := by
  match l with
  | [] => rfl
  | r0 :: rest =>
    simp only [weightedNormalize]
    by_cases h : 0 < pyMax r0.score (rest.map (·.score))
    · rw [if_pos h, List.map_map]
      rfl
    · rw [if_neg h]

/-- C3 counterexample.  Weighted fusion on the semantic list
`[score 2, score 1]` (keyword list empty, weights `1/2`): the minimum-scored
item fuses to `1/4`, not `0`.  A min-max rescale of the semantic list (as the
claim states) would send the minimum raw score `1` to `0`, making its fused
score `sw * 0 + kw * 0 = 0`; the code divides by the maximum instead, so the
minimum is sent to `1/2` and fuses to `1/4 ≠ 0`. -/
theorem weighted_fusion_not_minmax :
    (weightedFusion (1/2) (1/2) [⟨1, 1, "a", 2⟩, ⟨2, 1, "b", 1⟩] [] 10).map (·.score)
      = [1/2, 1/4] ∧ ((1:ℚ)/4 ≠ 0) := by
  constructor
  · norm_num [weightedFusion, weightedNormalize, pyMax, applySem, applyKey,
      updSem, updKey, sortDesc, insertDesc]
  · norm_num

/-- C3 (amended).  In weighted fusion each source list with a positive
maximum score is rescaled by dividing every score by that maximum (the
maximum maps to `1` and every rescaled score is at most `1`; the minimum maps
to `min/max`, not to `0`); the rescaled scores are weighted at insertion and
summed per `chunk_id`, and the merged list is sorted descending by fused
score and truncated to `top_k`, every output item originating from one of the
two source lists.  On the concrete input of the counterexample the fused
scores are `[1/2, 1/4]`. -/
theorem weighted_fusion_max_rescale (r0 : RetrievalResult)
    (rest : List RetrievalResult)
    (hmaxpos : 0 < pyMax r0.score (rest.map (·.score)))
    (sw kw : ℚ) (sem key : List RetrievalResult) (top_k : ℕ) :
    ((weightedNormalize (r0 :: rest)).map (·.score)
      = (r0 :: rest).map (fun r => r.score / pyMax r0.score (rest.map (·.score)))) ∧
    (∃ r ∈ weightedNormalize (r0 :: rest), r.score = 1) ∧
    (∀ r ∈ weightedNormalize (r0 :: rest), r.score ≤ 1) ∧
    (weightedFusion sw kw sem key top_k).length ≤ top_k ∧
    (weightedFusion sw kw sem key top_k).Pairwise (fun a b => b.score ≤ a.score) ∧
    (∀ r ∈ weightedFusion sw kw sem key top_k,
      r.chunk_id ∈ sem.map (·.chunk_id) ∨ r.chunk_id ∈ key.map (·.chunk_id)) ∧
    (weightedFusion (1/2) (1/2) [⟨1, 1, "a", 2⟩, ⟨2, 1, "b", 1⟩] [] 10).map (·.score)
      = [1/2, 1/4] := by
  have hnorm : weightedNormalize (r0 :: rest)
      = (r0 :: rest).map (fun r =>
          { r with score := r.score / pyMax r0.score (rest.map (·.score)) }) := by
    simp only [weightedNormalize]
    rw [if_pos hmaxpos]
  refine ⟨?_, ?_, ?_, ?_, ?_, ?_, ?_⟩
  · rw [hnorm, List.map_map]
    rfl
  · rcases pyMax_is_score r0 rest with ⟨a, ha, he⟩
    refine ⟨_, by rw [hnorm]; exact List.mem_map_of_mem _ ha, ?_⟩
    show a.score / pyMax r0.score (rest.map (·.score)) = 1
    rw [he, div_self hmaxpos.ne']
  · intro r hr
    rw [hnorm] at hr
    rcases List.mem_map.mp hr with ⟨a, ha, he⟩
    rw [← he]
    show a.score / pyMax r0.score (rest.map (·.score)) ≤ 1
    rw [div_le_one hmaxpos]
    exact score_le_pyMax r0 rest a ha
  · exact List.length_take_le _ _
  · exact List.Pairwise.sublist (List.take_sublist _ _) (pairwise_sortDesc _)
  · intro r hr
    have hfus : weightedFusion sw kw sem key top_k
        = (sortDesc ((applyKey
            (applySem [] ((weightedNormalize sem).map (fun r => (r, r.score * sw))))
            ((weightedNormalize key).map (fun r => (r, r.score * kw)))).map
              (fun e => { e.result with score := e.semS + e.keyS }))).take top_k := rfl
    rw [hfus] at hr
    have hr2 := (mem_sortDesc r _).mp (List.take_subset _ _ hr)
    rcases List.mem_map.mp hr2 with ⟨e, heM, hemap⟩
    have hcidres : e.cid = e.result.chunk_id :=
      applyKey_cid_result _ _
        (applySem_cid_result _ []
          (fun e' he' => absurd he' (List.not_mem_nil e'))) e heM
    have hrcid : r.chunk_id = e.cid := by
      rw [← hemap]; exact hcidres.symm
    have hpairs : ∀ (l : List RetrievalResult) (v : ℚ),
        ((weightedNormalize l).map (fun r => (r, r.score * v))).map (·.1.chunk_id)
          = l.map (·.chunk_id) := by
      intro l v
      rw [List.map_map]
      show (weightedNormalize l).map (·.chunk_id) = _
      exact weightedNormalize_cids l
    rcases applyKey_cid _ _ e heM with h1 | h1
    · rcases List.mem_map.mp h1 with ⟨e1, he1, hce⟩
      rcases applySem_cid _ [] e1 he1 with h2 | h2
      · rw [List.map_nil] at h2; cases h2
      · left
        rw [hrcid, ← hce]
        rw [hpairs] at h2
        exact h2
    · right
      rw [hrcid]
      rw [hpairs] at h1
      exact h1
  · norm_num [weightedFusion, weightedNormalize, pyMax, applySem, applyKey,
      updSem, updKey, sortDesc, insertDesc]

/-- Witness for `weighted_fusion_max_rescale` at the counterexample input. -/
theorem weighted_fusion_max_rescale_witness :
    (0 : ℚ) < pyMax (2 : ℚ) (([⟨2, 1, "b", 1⟩] : List RetrievalResult).map (·.score)) ∧
    ∀ r ∈ weightedNormalize [⟨1, 1, "a", 2⟩, ⟨2, 1, "b", 1⟩], r.score ≤ 1 := by
  have h : (0 : ℚ) < pyMax (2 : ℚ)
      (([⟨2, 1, "b", 1⟩] : List RetrievalResult).map (·.score)) := by
    norm_num [pyMax, List.foldl]
  exact ⟨h,
    (weighted_fusion_max_rescale ⟨1, 1, "a", 2⟩ [⟨2, 1, "b", 1⟩] h
      (1/2) (1/2) [] [] 10).2.2.1⟩

-- ### fixed-chunker lemmas
theorem snapsAt_ten_half : snapsAt 10 (1/2) = (fun se : ℤ => decide (5 < se)) := by
  funext se
  unfold snapsAt
  rw [decide_eq_decide]
  have h5 : ((10:ℕ):ℚ) * (1/2 : ℚ) = ((5:ℤ):ℚ) := by norm_num
  rw [h5]
  exact Int.cast_lt

theorem lt_fixedNext (co start e : ℕ) : start < fixedNext co start e := by
  unfold fixedNext
  by_cases h : (if 0 < co then e - co else e) ≤ start
  · rw [if_pos h]; omega
  · rw [if_neg h]; omega

theorem fixedLoopCore_no_guard (snap : ℤ → Bool) (cs co : ℕ) (text : List Char) :
    ∀ (fuel start idx : ℕ), text.length - start ≤ fuel →
      (fixedLoopCore snap cs co text fuel start idx).2 = false := by
  intro fuel
  induction fuel with
  | zero =>
    intro start idx h
    have : ¬ start < text.length := by omega
    simp [fixedLoopCore, this]
  | succ fuel ih =>
    intro start idx h
    by_cases hs : start < text.length
    · simp only [fixedLoopCore, if_pos hs]
      by_cases hb : text.length ≤ fixedNext co start (fixedStep snap cs co text start).2
      · rw [if_pos hb]
      · rw [if_neg hb]
        exact ih (fixedNext co start (fixedStep snap cs co text start).2) (idx + 1)
          (by have := lt_fixedNext co start (fixedStep snap cs co text start).2; omega)
    · simp [fixedLoopCore, hs]

theorem fixedLoopCore_start_mono (snap : ℤ → Bool) (cs co : ℕ) (text : List Char) :
    ∀ (fuel start idx : ℕ),
      (∀ c ∈ (fixedLoopCore snap cs co text fuel start idx).1,
        (start : ℤ) ≤ c.start_index) ∧
      ((fixedLoopCore snap cs co text fuel start idx).1.map (·.start_index)).Pairwise
        (· < ·) := by
  intro fuel
  induction fuel with
  | zero =>
    intro start idx
    by_cases hs : start < text.length <;> simp [fixedLoopCore, hs]
  | succ fuel ih =>
    intro start idx
    by_cases hs : start < text.length
    · simp only [fixedLoopCore, if_pos hs]
      by_cases hb : text.length ≤ fixedNext co start (fixedStep snap cs co text start).2
      · rw [if_pos hb]
        constructor
        · intro c hc
          rw [List.mem_singleton.mp hc]
        · simp
      · rw [if_neg hb]
        have ihn := ih (fixedNext co start (fixedStep snap cs co text start).2) (idx + 1)
        have hlt := lt_fixedNext co start (fixedStep snap cs co text start).2
        have hlt' : (start : ℤ) <
            ((fixedNext co start (fixedStep snap cs co text start).2 : ℕ) : ℤ) := by
          exact_mod_cast hlt
        constructor
        · intro c hc
          rcases List.mem_cons.mp hc with he | hm
          · rw [he]
          · exact le_of_lt (lt_of_lt_of_le hlt' (ihn.1 c hm))
        · rw [List.map_cons]
          refine List.pairwise_cons.mpr ⟨?_, ihn.2⟩
          intro b hb'
          rcases List.mem_map.mp hb' with ⟨c, hc, he⟩
          rw [← he]
          exact lt_of_lt_of_le hlt' (ihn.1 c hc)
    · simp [fixedLoopCore, hs]

/-- C8.  For every snap decision, configuration, text, budget and starting
state, the emitted chunks' start positions are strictly increasing (the loop
forces `start + 1` whenever the snapped/overlapped next start does not
advance), and a budget of at least `len(text) - start` iterations always
completes without tripping the guard — the loop terminates.  On the spec
scenario (`chunk_size=10`, `chunk_overlap=2`, text `"abcdefghijklmno"`) the
loop terminates within its iteration budget and returns 4 chunks
(positions `[0,10), [8,15), [13,15), [14,15)`), at least 2, each spanning at
most 10 characters. -/
theorem fixed_chunker_forward_progress :
    (∀ (snap : ℤ → Bool) (cs co : ℕ) (text : List Char) (fuel start idx : ℕ),
      ((fixedLoopCore snap cs co text fuel start idx).1.map (·.start_index)).Pairwise
        (· < ·)) ∧
    (∀ (snap : ℤ → Bool) (cs co : ℕ) (text : List Char) (fuel start idx : ℕ),
      text.length - start ≤ fuel →
      (fixedLoopCore snap cs co text fuel start idx).2 = false) ∧
    ((fixedChunk 10 2 (1/2) "abcdefghijklmno".toList).2 = false ∧
      2 ≤ (fixedChunk 10 2 (1/2) "abcdefghijklmno".toList).1.length ∧
      (fixedChunk 10 2 (1/2) "abcdefghijklmno".toList).1.map
        (fun c => (c.start_index, c.end_index)) = [(0, 10), (8, 15), (13, 15), (14, 15)] ∧
      ∀ c ∈ (fixedChunk 10 2 (1/2) "abcdefghijklmno".toList).1,
        c.end_index - c.start_index ≤ 10) := by
  have hconc : fixedChunk 10 2 (1/2) "abcdefghijklmno".toList
      = fixedLoopCore (snapsAt 10 (1/2)) 10 2 "abcdefghijklmno".toList 11 0 0 := rfl
  rw [snapsAt_ten_half] at hconc
  refine ⟨?_, ?_, ?_⟩
  · intro snap cs co text fuel start idx
    exact (fixedLoopCore_start_mono snap cs co text fuel start idx).2
  · intro snap cs co text fuel start idx h
    exact fixedLoopCore_no_guard snap cs co text fuel start idx h
  · rw [hconc]
    refine ⟨by decide, by decide, by decide, by decide⟩

/-- Witness for `fixed_chunker_forward_progress`: the budget hypothesis of
the termination conjunct discharged on the scenario input. -/
theorem fixed_chunker_forward_progress_witness :
    ("abcdefghijklmno".toList.length - 0 ≤ 15) ∧
    (fixedLoopCore (fun se : ℤ => decide (5 < se)) 10 2 "abcdefghijklmno".toList
      15 0 0).2 = false :=
  ⟨by decide,
    fixed_chunker_forward_progress.2.1 (fun se : ℤ => decide (5 < se)) 10 2
      "abcdefghijklmno".toList 15 0 0 (by decide)⟩

/-- C4 counterexample.  `chunk_size=10`, `chunk_overlap=8`,
`min_content_ratio=0.5` on the 80-character text `guardExText`
(delimiters at indices `≡ 3 (mod 4)` from 7 on): the loop exhausts its
iteration budget (`80 // 2 + 10 = 50`) before consuming the text, logs a
warning and breaks — `_chunk_by_chars` returns normally a non-empty chunk
list every element of which ends strictly before the end of the text (the
last at 72 of 80).  No error reaches the caller: the claim's "surfaces a
fatal internal error; never returns a silently truncated chunk list" is
false here. -/
theorem fixed_chunker_guard_truncates :
    (chunkByChars 10 8 (1/2) guardExText).2 = true ∧
    (chunkByChars 10 8 (1/2) guardExText).1 ≠ [] ∧
    ∀ c ∈ (chunkByChars 10 8 (1/2) guardExText).1,
      c.end_index < guardExText.length := by
  have hconc : chunkByChars 10 8 (1/2) guardExText
      = fixedLoopCore (snapsAt 10 (1/2)) 10 8 guardExText 50 0 0 := rfl
  rw [snapsAt_ten_half] at hconc
  rw [hconc]
  refine ⟨by decide, by decide, by decide⟩

/-- C4 (amended).  When the fixed-window loop reaches its iteration budget
(`len(text) // max(1, chunk_size - chunk_overlap) + 10`) with text left, it
logs a warning and breaks, returning the chunks accumulated so far — a
silently truncated list covering only a prefix of the text; no error is
raised.  The guard can fire only when the budget is below `len(text)` — with
a budget of at least `len(text) - start` the loop always completes normally.
Concretely, `chunk_size=10, chunk_overlap=8` on the 80-character
`guardExText` exhausts the budget of 50: the run returns 50 chunks, all
ending at or before index 72 `< 80`, with the guard flag set. -/
theorem fixed_chunker_guard_warns_and_breaks :
    (∀ (snap : ℤ → Bool) (cs co : ℕ) (text : List Char) (fuel start idx : ℕ),
      text.length - start ≤ fuel →
      (fixedLoopCore snap cs co text fuel start idx).2 = false) ∧
    (chunkByChars 10 8 (1/2) guardExText).2 = true ∧
    (chunkByChars 10 8 (1/2) guardExText).1.length = 50 ∧
    (∀ c ∈ (chunkByChars 10 8 (1/2) guardExText).1, c.end_index ≤ 72) ∧
    72 < guardExText.length := by
  have hconc : chunkByChars 10 8 (1/2) guardExText
      = fixedLoopCore (snapsAt 10 (1/2)) 10 8 guardExText 50 0 0 := rfl
  rw [snapsAt_ten_half] at hconc
  refine ⟨fun snap cs co text fuel start idx h =>
    fixedLoopCore_no_guard snap cs co text fuel start idx h, ?_, ?_, ?_, by decide⟩
  · rw [hconc]; decide
  · rw [hconc]; decide
  · rw [hconc]; decide

/-- Witness for `fixed_chunker_guard_warns_and_breaks`: the budget hypothesis
of the first conjunct discharged on a two-character text. -/
theorem fixed_chunker_guard_warns_and_breaks_witness :
    (['a', 'b'] : List Char).length - 0 ≤ 2 ∧
    (fixedLoopCore (fun se : ℤ => decide (5 < se)) 10 8 ['a', 'b'] 2 0 0).2 = false :=
  ⟨by decide,
    fixed_chunker_guard_warns_and_breaks.1 (fun se : ℤ => decide (5 < se)) 10 8
      ['a', 'b'] 2 0 0 (by decide)⟩

-- ### cleaning lemmas
theorem mem_collapseWS (l : List Char) :
    ∀ (flag : Bool) (c : Char), c ∈ collapseWS flag l → c = ' ' ∨ isPyWS c = false := by
  induction l with
  | nil => intro flag c h; cases h
  | cons a rest ih =>
    intro flag c h
    have hdef : collapseWS flag (a :: rest)
        = if isPyWS a then
            (if flag then collapseWS true rest else ' ' :: collapseWS true rest)
          else a :: collapseWS false rest := rfl
    rw [hdef] at h
    by_cases hws : isPyWS a
    · rw [if_pos hws] at h
      cases flag with
      | true => exact ih true c h
      | false =>
        rw [if_neg (by simp)] at h
        rcases List.mem_cons.mp h with he | hm
        · left; exact he
        · exact ih true c hm
    · rw [if_neg hws] at h
      rcases List.mem_cons.mp h with he | hm
      · right
        rw [he]
        exact Bool.not_eq_true _ ▸ hws
      · exact ih false c hm

theorem cleanPipeline_no_newline (s : List Char) : '\n' ∉ cleanPipeline s := by
  intro h
  rcases mem_collapseWS (pyStrip (removeEmptyLines s)) false '\n' h with he | hf
  · exact absurd he (by decide)
  · exact absurd hf (by decide)

theorem splitOnChar_eq_self (sep : Char) (l : List Char) (h : sep ∉ l) :
    splitOnChar sep l = [l] := by
  induction l with
  | nil => rfl
  | cons c rest ih =>
    have hc : c ≠ sep := fun he => h (he ▸ List.mem_cons_self c rest)
    have hr : sep ∉ rest := fun hm => h (List.mem_cons_of_mem c hm)
    show (List.foldr _ [[]] (c :: rest)) = [c :: rest]
    rw [List.foldr_cons]
    have : List.foldr _ [[]] rest = [rest] := ih hr
    rw [this]
    simp only [if_neg hc]

theorem joinLines_singleton (x : List Char) : joinLines [x] = x := by
  simp [joinLines, List.intercalate]

/-- C5.  Offset-bound violation of the title chunker at the failing input
`"abc"`: the cleaned source text has length 3, yet the single emitted chunk
spans `[0, 4)` — `end_index = len(source) + 1`, because the line loop counts
a newline after the final line (`current_pos += len(line) + 1`,
title_chunker.py line 85) and the trailing flush uses that `current_pos` as
`end_index`.  The invariant `start_index ≤ end_index ≤ len(source)` demanded
by the specification's data model fails on essentially every title-chunker
run; the same routine's no-chunk fallback correctly uses `len(text)`,
showing the `+1` is a slip. -/
theorem title_chunker_end_exceeds_len :
    (cleanPipeline "abc".toList).length = 3 ∧
    (titleChunk true "abc".toList).map (fun c => (c.start_index, c.end_index))
      = [(0, 4)] ∧
    ¬ (4 ≤ 3) :=
  ⟨by decide, by decide, by decide⟩

/-- C6 counterexample.  On the input `"# A\nbody\n# B\nmore"` — two Markdown
heading lines with interleaved content — the title chunker returns ONE chunk
whose `title` metadata is the entire collapsed line `"A body # B more"`.  The
claim requires a split at each input line matching `^#{1,6}\s+.+$` (at least
two chunks here, carrying titles `"A"` and `"B"`); instead `_clean_text`
collapses every whitespace run — newlines included — to a single space before
the line scan, so the scanned text has a single line and no split at the
input's heading lines ever happens. -/
theorem title_chunker_collapses_headings :
    (titleChunk true "# A\nbody\n# B\nmore".toList).length = 1 ∧
    (titleChunk true "# A\nbody\n# B\nmore".toList).map (fun c => c.title)
      = ["A body # B more".toList] ∧
    ("A body # B more".toList ≠ "A".toList) :=
  ⟨by decide, by decide, by decide⟩

/-- C6 (amended).  The title chunker scans the CLEANED text: with the default
whitespace pattern, cleaning collapses every whitespace run (newlines
included) to a single space, so the scanned text has no newline and exactly
one line.  The output is always exactly one chunk: if the cleaned text
matches `^#{1,6}\s+.+$` the chunk carries that heading's stripped text and
level (and, with `include_headers`, the heading line as content); otherwise
the whole cleaned text is emitted as one chunk with empty title and level 0.
(The chunk's `end_index` is `len(cleaned) + 1`, the off-by-one recorded at
C5.) -/
theorem title_chunker_single_chunk (s : List Char) :
    (titleChunk true s).length = 1 ∧
    (match headingMatch (cleanPipeline s) with
     | some (lvl, t) =>
        titleChunk true s
          = [{ content := pyStrip (cleanPipeline s),
               chunk_index := 0,
               start_index := 0,
               end_index := (cleanPipeline s).length + 1,
               title := pyStrip t,
               title_level := lvl }]
     | none =>
        titleChunk true s
          = [{ content := pyStrip (cleanPipeline s),
               chunk_index := 0,
               start_index := 0,
               end_index := (cleanPipeline s).length + 1,
               title := [],
               title_level := 0 }]) := by
  have hlines : splitOnChar '\n' (cleanPipeline s) = [cleanPipeline s] :=
    splitOnChar_eq_self '\n' (cleanPipeline s) (cleanPipeline_no_newline s)
  cases hm : headingMatch (cleanPipeline s) with
  | some p =>
    obtain ⟨lvl, t⟩ := p
    have hres : titleChunk true s
        = [{ content := pyStrip (cleanPipeline s),
             chunk_index := 0,
             start_index := 0,
             end_index := (cleanPipeline s).length + 1,
             title := pyStrip t,
             title_level := lvl }] := by
      simp only [titleChunk, hlines, List.foldl_cons, List.foldl_nil]
      simp [titleStep, hm, flushChunk, joinLines_singleton]
    rw [hres]
    exact ⟨rfl, rfl⟩
  | none =>
    have hres : titleChunk true s
        = [{ content := pyStrip (cleanPipeline s),
             chunk_index := 0,
             start_index := 0,
             end_index := (cleanPipeline s).length + 1,
             title := [],
             title_level := 0 }] := by
      simp only [titleChunk, hlines, List.foldl_cons, List.foldl_nil]
      simp [titleStep, hm, flushChunk, joinLines_singleton]
    rw [hres]
    exact ⟨rfl, rfl⟩

-- ### parent-child lemmas
theorem pyStrip_length_le (l : List Char) : (pyStrip l).length ≤ l.length := by
  unfold pyStrip
  rw [List.length_reverse]
  calc ((l.dropWhile isPyWS).reverse.dropWhile isPyWS).length
      ≤ (l.dropWhile isPyWS).reverse.length :=
        List.Sublist.length_le (List.dropWhile_sublist _)
    _ = (l.dropWhile isPyWS).length := List.length_reverse _
    _ ≤ l.length := List.Sublist.length_le (List.dropWhile_sublist _)

theorem sliceChars_length_le (text : List Char) (s e : ℕ) :
    (sliceChars text s e).length ≤ e - s := by
  unfold sliceChars
  rw [List.length_take]
  exact min_le_left _ _

theorem lastDelimIdx_bounds (l : List Char) :
    -1 ≤ lastDelimIdx l ∧ lastDelimIdx l < (l.length : ℤ) := by
  unfold lastDelimIdx
  have hidx : ∀ q ∈ l.enum, (q.1 : ℤ) < (l.length : ℤ) := by
    intro q hq
    have h1 : q.1 < 0 + l.length := by
      have := List.fst_lt_add_of_mem_enumFrom (show q ∈ List.enumFrom 0 l from hq)
      simpa using this
    exact_mod_cast by omega
  have hgen : ∀ (L : List (ℕ × Char)) (acc : ℤ),
      (∀ q ∈ L, (q.1 : ℤ) < (l.length : ℤ)) →
      -1 ≤ acc → acc < (l.length : ℤ) ∨ acc = -1 →
      -1 ≤ L.foldl (fun acc p => if isSentenceDelim p.2 then (p.1 : ℤ) else acc) acc ∧
      L.foldl (fun acc p => if isSentenceDelim p.2 then (p.1 : ℤ) else acc) acc
        < (l.length : ℤ) ∨
      L.foldl (fun acc p => if isSentenceDelim p.2 then (p.1 : ℤ) else acc) acc = -1 := by
    intro L
    induction L with
    | nil =>
      intro acc _ hge hcase
      rcases hcase with h | h
      · exact Or.inl ⟨hge, h⟩
      · exact Or.inr h
    | cons q Lrest ih =>
      intro acc hall hge hcase
      rw [List.foldl_cons]
      by_cases hd : isSentenceDelim q.2
      · rw [if_pos hd]
        refine ih _ (fun r hr => hall r (List.mem_cons_of_mem q hr)) (by omega)
          (Or.inl (hall q (List.mem_cons_self q Lrest)))
      · rw [if_neg hd]
        exact ih _ (fun r hr => hall r (List.mem_cons_of_mem q hr)) hge hcase
  rcases hgen l.enum (-1) hidx le_rfl (Or.inr rfl) with ⟨h1, h2⟩ | h
  · exact ⟨h1, h2⟩
  · rw [h]
    refine ⟨le_rfl, ?_⟩
    have : (0:ℤ) ≤ (l.length : ℤ) := Int.natCast_nonneg _
    omega

theorem rfind2NL_spec (text : List Char) (s e : ℕ) :
    rfind2NL text s e = -1 ∨
    ∃ i : ℕ, rfind2NL text s e = (i : ℤ) ∧ s ≤ i ∧ i + 2 ≤ e := by
  unfold rfind2NL
  have hgen : ∀ (L : List ℕ) (acc : ℤ),
      (acc = -1 ∨ ∃ i : ℕ, acc = (i : ℤ) ∧ s ≤ i ∧ i + 2 ≤ e) →
      (L.foldl (fun acc i =>
          if s ≤ i ∧ i + 2 ≤ e ∧ text.getD i ' ' = '\n' ∧ text.getD (i + 1) ' ' = '\n'
          then (i : ℤ) else acc) acc = -1 ∨
        ∃ i : ℕ, L.foldl (fun acc i =>
          if s ≤ i ∧ i + 2 ≤ e ∧ text.getD i ' ' = '\n' ∧ text.getD (i + 1) ' ' = '\n'
          then (i : ℤ) else acc) acc = (i : ℤ) ∧ s ≤ i ∧ i + 2 ≤ e) := by
    intro L
    induction L with
    | nil => intro acc h; exact h
    | cons x Lrest ih =>
      intro acc h
      rw [List.foldl_cons]
      by_cases hc : s ≤ x ∧ x + 2 ≤ e ∧ text.getD x ' ' = '\n' ∧
          text.getD (x + 1) ' ' = '\n'
      · rw [if_pos hc]
        exact ih _ (Or.inr ⟨x, rfl, hc.1, hc.2.1⟩)
      · rw [if_neg hc]
        exact ih _ h
  exact hgen (List.range text.length) (-1) (Or.inl rfl)

theorem parentEnd_bounds (ps : ℕ) (ratio : ℚ) (hratio : 0 ≤ ratio)
    (text : List Char) (start : ℕ) (hs : start < text.length) :
    start ≤ parentEnd (parentSnapsAt ps ratio) ps text start ∧
    parentEnd (parentSnapsAt ps ratio) ps text start ≤ text.length := by
  unfold parentEnd
  by_cases h0 : min (start + ps) text.length < text.length
  · rw [if_pos h0]
    by_cases hsnap : parentSnapsAt ps ratio start (rfind2NL text start (min (start + ps) text.length))
    · rw [if_pos hsnap]
      unfold parentSnapsAt at hsnap
      rw [decide_eq_true_eq] at hsnap
      have hmul : (0:ℚ) ≤ (ps : ℚ) * ratio := by positivity
      have hlt : (start : ℚ) < (rfind2NL text start (min (start + ps) text.length) : ℚ) := by
        linarith
      have hlti : (start : ℤ) < rfind2NL text start (min (start + ps) text.length) := by
        exact_mod_cast hlt
      rcases rfind2NL_spec text start (min (start + ps) text.length) with hneg | ⟨i, hi, hsi, hie⟩
      · rw [hneg] at hlti
        omega
      · rw [hi]
        have h2 : ((i : ℤ) + 2).toNat = i + 2 := by omega
        rw [h2]
        constructor
        · omega
        · omega
    · rw [if_neg hsnap]
      exact ⟨le_min (by omega) (by omega), min_le_right _ _⟩
  · rw [if_neg h0]
    exact ⟨le_min (by omega) (by omega), min_le_right _ _⟩

theorem parentLoop_spec (ps : ℕ) (ratio : ℚ) (hratio : 0 ≤ ratio)
    (text : List Char) :
    ∀ (fuel start pi : ℕ),
      ∀ p ∈ parentLoop (parentSnapsAt ps ratio) ps text fuel start pi,
        p.start_index ≤ p.end_index ∧ p.end_index ≤ (text.length : ℤ) ∧
        p.parent_chunk_id = none ∧
        (p.content.length : ℤ) ≤ p.end_index - p.start_index := by
  intro fuel
  induction fuel with
  | zero => intro start pi p hp; cases hp
  | succ fuel ih =>
    intro start pi p hp
    by_cases hs : start < text.length
    · rw [show parentLoop (parentSnapsAt ps ratio) ps text (fuel + 1) start pi
          = if start < text.length then
              { content := pyStrip (sliceChars text start
                  (parentEnd (parentSnapsAt ps ratio) ps text start)),
                chunk_index := pi, start_index := start,
                end_index := parentEnd (parentSnapsAt ps ratio) ps text start } ::
                parentLoop (parentSnapsAt ps ratio) ps text fuel
                  (parentEnd (parentSnapsAt ps ratio) ps text start) (pi + 1)
            else [] from rfl, if_pos hs] at hp
      rcases List.mem_cons.mp hp with he | hm
      · obtain ⟨hle, hlen⟩ := parentEnd_bounds ps ratio hratio text start hs
        have hcont : (pyStrip (sliceChars text start
              (parentEnd (parentSnapsAt ps ratio) ps text start))).length
            ≤ (sliceChars text start
                (parentEnd (parentSnapsAt ps ratio) ps text start)).length :=
          pyStrip_length_le _
        have hslc := sliceChars_length_le text start
          (parentEnd (parentSnapsAt ps ratio) ps text start)
        rw [he]
        dsimp only
        refine ⟨?_, ?_, rfl, ?_⟩ <;> omega
      · exact ih _ _ p hm
    · rw [show parentLoop (parentSnapsAt ps ratio) ps text (fuel + 1) start pi
          = if start < text.length then
              { content := pyStrip (sliceChars text start
                  (parentEnd (parentSnapsAt ps ratio) ps text start)),
                chunk_index := pi, start_index := start,
                end_index := parentEnd (parentSnapsAt ps ratio) ps text start } ::
                parentLoop (parentSnapsAt ps ratio) ps text fuel
                  (parentEnd (parentSnapsAt ps ratio) ps text start) (pi + 1)
            else [] from rfl, if_neg hs] at hp
      cases hp

theorem pyIdx_nonneg_eq (n : ℕ) (i : ℤ) (h0 : 0 ≤ i) (hn : i ≤ (n : ℤ)) :
    pyIdx n i = i := by
  unfold pyIdx
  rw [if_neg (by omega)]
  omega

theorem pySlice_eq_sliceChars (text : List Char) (s e : ℤ) (hs0 : 0 ≤ s)
    (hsn : s ≤ (text.length : ℤ)) (he0 : 0 ≤ e) (hen : e ≤ (text.length : ℤ)) :
    pySlice text s e = sliceChars text s.toNat e.toNat := by
  unfold pySlice sliceChars
  rw [pyIdx_nonneg_eq _ _ hs0 hsn, pyIdx_nonneg_eq _ _ he0 hen]
  congr 1
  omega

theorem childStep_progress (cs co : ℕ) (ratio : ℚ) (hco : co < cs)
    (hcor : (co : ℚ) ≤ (cs : ℚ) * ratio) (text : List Char) (start : ℤ)
    (hs0 : 0 ≤ start) (hs : start < (text.length : ℤ)) :
    start ≤ (childStep (snapsAt cs ratio) cs co text start).2 ∧
    (childStep (snapsAt cs ratio) cs co text start).2 ≤ (text.length : ℤ) ∧
    ((childStep (snapsAt cs ratio) cs co text start).2 < (text.length : ℤ) →
      (co : ℤ) < (childStep (snapsAt cs ratio) cs co text start).2 - start) := by
  have hend0 : 0 ≤ min (start + (cs : ℤ)) (text.length : ℤ) := by
    have : (0:ℤ) ≤ (cs : ℤ) := Int.natCast_nonneg _
    have : (0:ℤ) ≤ (text.length : ℤ) := Int.natCast_nonneg _
    omega
  have hend1 : min (start + (cs : ℤ)) (text.length : ℤ) ≤ (text.length : ℤ) :=
    min_le_right _ _
  have hclen : (pySlice text start (min (start + (cs : ℤ)) (text.length : ℤ))).length
      ≤ (min (start + (cs : ℤ)) (text.length : ℤ) - start).toNat := by
    rw [pySlice_eq_sliceChars text start _ hs0 (le_of_lt hs) hend0 hend1]
    have h1 := sliceChars_length_le text start.toNat
      (min (start + (cs : ℤ)) (text.length : ℤ)).toNat
    omega
  unfold childStep
  by_cases h0 : min (start + (cs : ℤ)) (text.length : ℤ) < (text.length : ℤ) ∧ 0 < co
  · rw [if_pos h0]
    by_cases hsnap : snapsAt cs ratio
        (lastDelimIdx (pySlice text start (min (start + (cs : ℤ)) (text.length : ℤ))))
    · rw [if_pos hsnap]
      unfold snapsAt at hsnap
      rw [decide_eq_true_eq] at hsnap
      have hcose : (co : ℤ) <
          lastDelimIdx (pySlice text start (min (start + (cs : ℤ)) (text.length : ℤ))) := by
        exact_mod_cast lt_of_le_of_lt hcor hsnap
      have hdb := lastDelimIdx_bounds
        (pySlice text start (min (start + (cs : ℤ)) (text.length : ℤ)))
      have hL : ((pySlice text start (min (start + (cs : ℤ)) (text.length : ℤ))).take
          (lastDelimIdx (pySlice text start (min (start + (cs : ℤ)) (text.length : ℤ))) + 1).toNat).length
          = min (lastDelimIdx (pySlice text start (min (start + (cs : ℤ)) (text.length : ℤ))) + 1).toNat
              (pySlice text start (min (start + (cs : ℤ)) (text.length : ℤ))).length :=
        List.length_take _ _
      refine ⟨?_, ?_, ?_⟩
      · dsimp only
        omega
      · dsimp only
        omega
      · dsimp only
        intro _
        omega
    · rw [if_neg hsnap]
      refine ⟨?_, ?_, ?_⟩
      · dsimp only
        have : (0:ℤ) ≤ (cs : ℤ) := Int.natCast_nonneg _
        omega
      · dsimp only
        omega
      · dsimp only
        intro hlt
        have hcz : (co : ℤ) < (cs : ℤ) := by exact_mod_cast hco
        omega
  · rw [if_neg h0]
    push_neg at h0
    refine ⟨?_, ?_, ?_⟩
    · dsimp only
      have : (0:ℤ) ≤ (cs : ℤ) := Int.natCast_nonneg _
      omega
    · dsimp only
      omega
    · dsimp only
      intro hlt
      have hcz : (co : ℤ) < (cs : ℤ) := by exact_mod_cast hco
      have hco0 := h0 hlt
      omega

theorem childLoop_spec (cs co : ℕ) (ratio : ℚ) (hco : co < cs)
    (hcor : (co : ℚ) ≤ (cs : ℚ) * ratio) (text : List Char) (base : ℤ)
    (pidx : ℕ) :
    ∀ (fuel : ℕ) (start : ℤ) (ci : ℕ), 0 ≤ start →
      ∀ c ∈ childLoop (snapsAt cs ratio) cs co text base pidx fuel start ci,
        base ≤ c.start_index ∧ c.start_index ≤ c.end_index ∧
        c.end_index ≤ base + (text.length : ℤ) ∧ c.parent_chunk_id = some pidx := by
  intro fuel
  induction fuel with
  | zero => intro start ci _ c hc; cases hc
  | succ fuel ih =>
    intro start ci hs0 c hc
    by_cases hs : start < (text.length : ℤ)
    · have hb := childStep_progress cs co ratio hco hcor text start hs0 hs
      rw [show childLoop (snapsAt cs ratio) cs co text base pidx (fuel + 1) start ci
          = if start < (text.length : ℤ) then
              (if (text.length : ℤ) ≤ (childStep (snapsAt cs ratio) cs co text start).2 then
                [{ content := pyStrip (childStep (snapsAt cs ratio) cs co text start).1,
                   chunk_index := ci, start_index := base + start,
                   end_index := base + (childStep (snapsAt cs ratio) cs co text start).2,
                   parent_chunk_id := some pidx }]
              else
                (if (childStep (snapsAt cs ratio) cs co text start).2 ≤
                    (if 0 < co then (childStep (snapsAt cs ratio) cs co text start).2 - co
                     else (childStep (snapsAt cs ratio) cs co text start).2) then
                  [{ content := pyStrip (childStep (snapsAt cs ratio) cs co text start).1,
                     chunk_index := ci, start_index := base + start,
                     end_index := base + (childStep (snapsAt cs ratio) cs co text start).2,
                     parent_chunk_id := some pidx }]
                else
                  { content := pyStrip (childStep (snapsAt cs ratio) cs co text start).1,
                    chunk_index := ci, start_index := base + start,
                    end_index := base + (childStep (snapsAt cs ratio) cs co text start).2,
                    parent_chunk_id := some pidx } ::
                    childLoop (snapsAt cs ratio) cs co text base pidx fuel
                      (if 0 < co then (childStep (snapsAt cs ratio) cs co text start).2 - co
                       else (childStep (snapsAt cs ratio) cs co text start).2) (ci + 1)))
            else [] from rfl, if_pos hs] at hc
      by_cases h1 : (text.length : ℤ) ≤ (childStep (snapsAt cs ratio) cs co text start).2
      · rw [if_pos h1] at hc
        rw [List.mem_singleton.mp hc]
        dsimp only
        exact ⟨by omega, by omega, by omega, rfl⟩
      · rw [if_neg h1] at hc
        by_cases h2 : (childStep (snapsAt cs ratio) cs co text start).2 ≤
            (if 0 < co then (childStep (snapsAt cs ratio) cs co text start).2 - co
             else (childStep (snapsAt cs ratio) cs co text start).2)
        · rw [if_pos h2] at hc
          rw [List.mem_singleton.mp hc]
          dsimp only
          exact ⟨by omega, by omega, by omega, rfl⟩
        · rw [if_neg h2] at hc
          rcases List.mem_cons.mp hc with he | hm
          · rw [he]
            dsimp only
            exact ⟨by omega, by omega, by omega, rfl⟩
          · refine ih _ _ ?_ c hm
            have h3 := hb.2.2 (by omega)
            by_cases hcop : 0 < co
            · rw [if_pos hcop]
              omega
            · rw [if_neg hcop]
              omega
    · rw [show childLoop (snapsAt cs ratio) cs co text base pidx (fuel + 1) start ci
          = if start < (text.length : ℤ) then _ else [] from rfl, if_neg hs] at hc
      cases hc

theorem assemble_chunk_index (snap : ℤ → Bool) (cs co : ℕ) :
    ∀ (parents : List Chunk) (idx i : ℕ) (c : Chunk),
      (parentChildAssemble snap cs co parents idx)[i]? = some c →
      c.chunk_index = idx + i := by
  intro parents
  induction parents with
  | nil =>
    intro idx i c h
    simp [parentChildAssemble] at h
  | cons p rest ih =>
    intro idx i c h
    obtain ⟨kids, hkids⟩ : ∃ k, createChildChunks snap cs co p.content p.start_index idx = k :=
      ⟨_, rfl⟩
    have hL : parentChildAssemble snap cs co (p :: rest) idx
        = { p with chunk_index := idx } ::
          (kids.enum.map (fun q => { q.2 with chunk_index := idx + 1 + q.1, parent_chunk_id := some idx }) ++
            parentChildAssemble snap cs co rest (idx + 1 + kids.length)) := by
      rw [← hkids]
      simp [parentChildAssemble]
    rw [hL] at h
    have hklen : (kids.enum.map (fun q : ℕ × Chunk => ({ q.2 with chunk_index := idx + 1 + q.1, parent_chunk_id := some idx } : Chunk))).length = kids.length := by
      rw [List.length_map, List.enum_length]
    cases i with
    | zero =>
      rw [List.getElem?_cons_zero] at h
      have hc : c = { p with chunk_index := idx } := (Option.some_inj.mp h).symm
      rw [hc]
      rfl
    | succ t =>
      rw [List.getElem?_cons_succ] at h
      by_cases ht : t < (kids.enum.map (fun q : ℕ × Chunk => ({ q.2 with chunk_index := idx + 1 + q.1, parent_chunk_id := some idx } : Chunk))).length
      · rw [List.getElem?_append_left ht] at h
        rw [List.getElem?_map, List.getElem?_enum] at h
        cases hk : kids[t]? with
        | none => rw [hk] at h; simp at h
        | some k =>
          rw [hk] at h
          simp only [Option.map_some'] at h
          have hc := (Option.some_inj.mp h).symm
          rw [hc]
          show idx + 1 + t = idx + (t + 1)
          omega
      · push_neg at ht
        rw [List.getElem?_append_right ht] at h
        have hres := ih (idx + 1 + kids.length) _ c h
        rw [hklen] at ht hres
        omega

theorem assemble_parent_ref (cs co : ℕ) (ratio : ℚ) (hco : co < cs)
    (hcor : (co : ℚ) ≤ (cs : ℚ) * ratio) :
    ∀ (parents : List Chunk) (idx : ℕ),
      (∀ p ∈ parents, p.parent_chunk_id = none ∧ p.start_index ≤ p.end_index ∧
        (p.content.length : ℤ) ≤ p.end_index - p.start_index) →
      ∀ (i : ℕ) (c : Chunk) (j : ℕ),
        (parentChildAssemble (snapsAt cs ratio) cs co parents idx)[i]? = some c →
        c.parent_chunk_id = some j →
        idx ≤ j ∧ j - idx < i ∧
        ∃ q : Chunk, (parentChildAssemble (snapsAt cs ratio) cs co parents idx)[j - idx]? = some q ∧
          q.parent_chunk_id = none ∧ q.start_index ≤ c.start_index ∧
          c.end_index ≤ q.end_index ∧
          ∀ (m : ℕ) (d : Chunk), j - idx < m → m ≤ i →
            (parentChildAssemble (snapsAt cs ratio) cs co parents idx)[m]? = some d →
            d.parent_chunk_id = some j := by
  intro parents
  induction parents with
  | nil =>
    intro idx _ i c j h _
    simp [parentChildAssemble] at h
  | cons p rest ih =>
    intro idx hPOK i c j h hcj
    obtain ⟨kids, hkids⟩ : ∃ k, createChildChunks (snapsAt cs ratio) cs co p.content p.start_index idx = k :=
      ⟨_, rfl⟩
    have hp := hPOK p (List.mem_cons_self p rest)
    have hkidsSpec : ∀ k ∈ kids, p.start_index ≤ k.start_index ∧
        k.start_index ≤ k.end_index ∧
        k.end_index ≤ p.start_index + (p.content.length : ℤ) ∧
        k.parent_chunk_id = some idx := by
      intro k hk
      rw [← hkids] at hk
      exact childLoop_spec cs co ratio hco hcor p.content p.start_index idx
        (p.content.length + 1) 0 0 le_rfl k hk
    have hL : parentChildAssemble (snapsAt cs ratio) cs co (p :: rest) idx
        = { p with chunk_index := idx } ::
          (kids.enum.map (fun q => { q.2 with chunk_index := idx + 1 + q.1, parent_chunk_id := some idx }) ++
            parentChildAssemble (snapsAt cs ratio) cs co rest (idx + 1 + kids.length)) := by
      rw [← hkids]
      simp [parentChildAssemble]
    have hklen : (kids.enum.map (fun q : ℕ × Chunk => ({ q.2 with chunk_index := idx + 1 + q.1, parent_chunk_id := some idx } : Chunk))).length = kids.length := by
      rw [List.length_map, List.enum_length]
    rw [hL] at h
    cases i with
    | zero =>
      rw [List.getElem?_cons_zero] at h
      have hc : c = { p with chunk_index := idx } := (Option.some_inj.mp h).symm
      rw [hc] at hcj
      have : p.parent_chunk_id = some j := hcj
      rw [hp.1] at this
      cases this
    | succ t =>
      rw [List.getElem?_cons_succ] at h
      by_cases ht : t < (kids.enum.map (fun q : ℕ × Chunk => ({ q.2 with chunk_index := idx + 1 + q.1, parent_chunk_id := some idx } : Chunk))).length
      · -- the chunk is a child of this group's parent
        rw [List.getElem?_append_left ht] at h
        rw [List.getElem?_map, List.getElem?_enum] at h
        cases hk : kids[t]? with
        | none => rw [hk] at h; simp at h
        | some k =>
          rw [hk] at h
          simp only [Option.map_some'] at h
          have hc := (Option.some_inj.mp h).symm
          have hkin : k ∈ kids := List.getElem?_mem hk
          have hks := hkidsSpec k hkin
          have hjidx : j = idx := by
            rw [hc] at hcj
            have : some idx = some j := hcj
            exact (Option.some_inj.mp this).symm
          subst hjidx
          refine ⟨le_rfl, by omega, { p with chunk_index := j }, ?_, hp.1, ?_, ?_, ?_⟩
          · rw [hL]
            have h0 : j - j = 0 := by omega
            rw [h0, List.getElem?_cons_zero]
          · rw [hc]
            show p.start_index ≤ k.start_index
            exact hks.1
          · rw [hc]
            show k.end_index ≤ p.end_index
            have h1 := hks.2.2.1
            have h2 := hp.2.1
            have h3 := hp.2.2
            omega
          · intro m d hm1 hm2 hmd
            rw [hL] at hmd
            have hm0 : 0 < m := by omega
            obtain ⟨u, hu⟩ : ∃ u, m = u + 1 := ⟨m - 1, by omega⟩
            rw [hu, List.getElem?_cons_succ] at hmd
            have hut : u < (kids.enum.map (fun q : ℕ × Chunk => ({ q.2 with chunk_index := j + 1 + q.1, parent_chunk_id := some j } : Chunk))).length := by
              rw [hklen] at ht ⊢
              omega
            rw [List.getElem?_append_left hut] at hmd
            rw [List.getElem?_map, List.getElem?_enum] at hmd
            cases hk2 : kids[u]? with
            | none => rw [hk2] at hmd; simp at hmd
            | some k2 =>
              rw [hk2] at hmd
              simp only [Option.map_some'] at hmd
              have hd := (Option.some_inj.mp hmd).symm
              rw [hd]
      · -- the chunk lies in a later group
        push_neg at ht
        rw [List.getElem?_append_right ht] at h
        have hres := ih (idx + 1 + kids.length) (fun q hq => hPOK q (List.mem_cons_of_mem p hq))
          _ c j h hcj
        obtain ⟨hj1, hj2, q, hq1, hq2, hq3, hq4, hq5⟩ := hres
        rw [hklen] at ht h hj2
        refine ⟨by omega, by omega, q, ?_, hq2, hq3, hq4, ?_⟩
        · rw [hL]
          obtain ⟨v, hv⟩ : ∃ v, j - idx = v + 1 := ⟨j - idx - 1, by omega⟩
          rw [hv, List.getElem?_cons_succ]
          have hvk : (kids.enum.map (fun q : ℕ × Chunk => ({ q.2 with chunk_index := idx + 1 + q.1, parent_chunk_id := some idx } : Chunk))).length ≤ v := by
            rw [hklen]
            omega
          rw [List.getElem?_append_right hvk]
          have hidx2 : v - (kids.enum.map (fun q : ℕ × Chunk => ({ q.2 with chunk_index := idx + 1 + q.1, parent_chunk_id := some idx } : Chunk))).length
              = j - (idx + 1 + kids.length) := by
            rw [hklen]
            omega
          rw [hidx2]
          exact hq1
        · intro m d hm1 hm2 hmd
          rw [hL] at hmd
          obtain ⟨u, hu⟩ : ∃ u, m = u + 1 := ⟨m - 1, by omega⟩
          rw [hu, List.getElem?_cons_succ] at hmd
          have huk : (kids.enum.map (fun q : ℕ × Chunk => ({ q.2 with chunk_index := idx + 1 + q.1, parent_chunk_id := some idx } : Chunk))).length ≤ u := by
            rw [hklen]
            omega
          rw [List.getElem?_append_right huk] at hmd
          rw [hklen] at hmd
          exact hq5 (u - kids.length) d (by omega) (by omega) hmd

/-- C7 counterexample.  `parent_size=15`, `child_size=10`, `child_overlap=8`,
`min_content_ratio=0.5` on the 15-character text `"abcdef.hijklmno"` (one
parent `[0,15)`): the first child window snaps at the `'.'` (relative index
`6 > 10*0.5`) and ends at 7, the overlap step-back computes
`start = 7 - 8 = -1` — Python ints are signed, and `-1 >= 7` is false, so the
loop continues — `text[-1:9]` is empty by Python's negative-index slicing,
and the loop emits the child `[-1, 9)` before terminating normally through
its own break.  The run returns six chunks; the child at position 2 has
`start_index = -1 < 0 = ` its parent's `start_index`, so its
`[start_index, end_index)` is NOT contained in the parent's `[0, 15)`: the
claimed containment is false of the code as written. -/
theorem parent_child_containment_violated :
    (parentChildChunk 15 10 8 (1/2) "abcdef.hijklmno".toList).map
        (fun c => (c.start_index, c.end_index, c.parent_chunk_id))
      = [(0, 15, none), (0, 7, some 0), (-1, 9, some 0), (1, 11, some 0),
         (3, 13, some 0), (5, 15, some 0)] ∧
    ¬ ((0 : ℤ) ≤ -1) := by
  have hconc : parentChildChunk 15 10 8 (1/2) "abcdef.hijklmno".toList
      = parentChildAssemble (snapsAt 10 (1/2)) 10 8
          (createParentChunks 15 (1/2)
            (cleanPipeline "abcdef.hijklmno".toList)) 0 := rfl
  rw [snapsAt_ten_half] at hconc
  rw [hconc]
  exact ⟨by decide, by decide⟩

/-- C7 (amended).  The claimed structure holds on the configuration domain
where the overlap step-back cannot reach back past the window start:
`child_size ≥ 1`, `child_overlap < child_size`,
`child_overlap ≤ child_size * min_content_ratio`, `min_content_ratio ≥ 0`
and `parent_size ≥ 1` — the defaults (`2000/512/50/0.5`) included.  There the
child loop's `start` stays non-negative, and in every parent-child output:
the chunk at position `i` carries `chunk_index = i` (chunk indices strictly
increase in emission order); every chunk holding `parent_chunk_id = some j`
is a child whose parent sits earlier at position `j` (`j < i`), that parent
has no `parent_chunk_id`, the child's `[start_index, end_index)` is contained
in the parent's, and every chunk strictly between the parent and the child is
a sibling referencing the same parent — each parent is immediately followed
by exactly its own children.  Outside that domain the containment clause
fails on the code (see the counterexample): when
`child_overlap > child_size * min_content_ratio`, the signed step-back
`start = end - child_overlap` can turn negative and a child escapes its
parent's range. -/
theorem parent_child_structure (ps cs co : ℕ) (ratio : ℚ) (text : List Char)
    (hps : 1 ≤ ps) (hcs : 1 ≤ cs) (hco : co < cs)
    (hcor : (co : ℚ) ≤ (cs : ℚ) * ratio) (hratio : 0 ≤ ratio) :
    (∀ (i : ℕ) (c : Chunk), (parentChildChunk ps cs co ratio text)[i]? = some c →
      c.chunk_index = i) ∧
    (∀ (i : ℕ) (c : Chunk) (j : ℕ),
      (parentChildChunk ps cs co ratio text)[i]? = some c →
      c.parent_chunk_id = some j →
      j < i ∧ ∃ q : Chunk, (parentChildChunk ps cs co ratio text)[j]? = some q ∧
        q.parent_chunk_id = none ∧ q.start_index ≤ c.start_index ∧
        c.end_index ≤ q.end_index ∧
        ∀ (m : ℕ) (d : Chunk), j < m → m ≤ i →
          (parentChildChunk ps cs co ratio text)[m]? = some d →
          d.parent_chunk_id = some j) := by
  have hPOK : ∀ p ∈ createParentChunks ps ratio (cleanPipeline text),
      p.parent_chunk_id = none ∧ p.start_index ≤ p.end_index ∧
      (p.content.length : ℤ) ≤ p.end_index - p.start_index := by
    intro p hp
    have hspec := parentLoop_spec ps ratio hratio (cleanPipeline text) _ _ _ p hp
    exact ⟨hspec.2.2.1, hspec.1, hspec.2.2.2⟩
  constructor
  · intro i c h
    have hidx := assemble_chunk_index (snapsAt cs ratio) cs co
      (createParentChunks ps ratio (cleanPipeline text)) 0 i c h
    omega
  · intro i c j h hcj
    have hres := assemble_parent_ref cs co ratio hco hcor
      (createParentChunks ps ratio (cleanPipeline text)) 0 hPOK i c j h hcj
    obtain ⟨_, hj2, q, hq1, hq2, hq3, hq4, hq5⟩ := hres
    have hj0 : j - 0 = j := by omega
    rw [hj0] at hj2 hq1
    exact ⟨hj2, q, hq1, hq2, hq3, hq4,
      fun m d hm1 hm2 hmd => hq5 m d (by omega) hm2 hmd⟩

/-- Witness for `parent_child_structure` at
`parent_size=4, child_size=3, child_overlap=1, min_content_ratio=1/2` on the
text `"ab\n\ncd"`. -/
theorem parent_child_structure_witness :
    ((1:ℕ) ≤ 4 ∧ (1:ℕ) ≤ 3 ∧ (1:ℕ) < 3 ∧ ((1:ℕ) : ℚ) ≤ ((3:ℕ) : ℚ) * (1/2) ∧
      (0:ℚ) ≤ 1/2) ∧
    (∀ (i : ℕ) (c : Chunk),
      (parentChildChunk 4 3 1 (1/2) "ab\n\ncd".toList)[i]? = some c →
      c.chunk_index = i) :=
  ⟨⟨by norm_num, by norm_num, by norm_num, by norm_num, by norm_num⟩,
    (parent_child_structure 4 3 1 (1/2) "ab\n\ncd".toList (by norm_num) (by norm_num)
      (by norm_num) (by norm_num) (by norm_num)).1⟩
